import Mathlib

/-!
Verification of the passenger-exporter core (src/main.go).

The development embeds the exporter's stable-identifier algorithm
(`updateProcesses`, src/main.go:349-402) and the orchestrating `Collect`
method (src/main.go:261-292) as executable Lean functions, and proves the
behavioural claims about them.

Modelling conventions:
* A Go `map[string]int` is embedded as an association list with at most one
  entry per key (`IdentityMap`); `mapLookup` is a map read and `mapInsert`
  a map assignment (replacing an existing key's value).  Go map equality in
  the sense of `reflect.DeepEqual` is key-wise lookup equality (`mapEquiv`).
* Go `int`/`int64` are embedded as `Int`; no arithmetic on the embedded
  paths can overflow 64 bits, so no wrap-around modelling is needed.
* A Go runtime panic (index out of range on `found[id]`, negative
  `make([]string, n)` length) is modelled by returning `none`.
-/

/-- The exporter's pid-to-slot map (Go `map[string]int`, src/main.go:136),
embedded as an association list with at most one entry per key. -/
abbrev IdentityMap := List (String × Int)

/-- Go map read `old[pid]` on an `IdentityMap`. -/
def mapLookup : IdentityMap → String → Option Int
  | [], _ => none
  | (k, v) :: rest, key => if k = key then some v else mapLookup rest key

/-- Go map assignment `m[pid] = v`: replace the value when the key is
present, otherwise append the new entry. -/
def mapInsert : IdentityMap → String → Int → IdentityMap
  | [], key, v => [(key, v)]
  | (k, w) :: rest, key, v =>
    if k = key then (key, v) :: rest else (k, w) :: mapInsert rest key v

/-- Extensional equality of Go maps (what `reflect.DeepEqual` compares on
`map[string]int`). -/
def mapEquiv (m₁ m₂ : IdentityMap) : Prop :=
  ∀ k, mapLookup m₁ k = mapLookup m₂ k

/-- One `<process>` record of passenger's status output (src/main.go:72-98).
Only the fields read by the exporter's core code paths (`PID`,
`RequestsProcessed`, `SpawnStartTime`, `RealMemory`) are embedded; the
remaining XML fields are decoded by the Go struct but never consulted by
`updateProcesses` or `Collect`. -/
structure Process where
  pid : String
  requestsProcessed : Int
  spawnStartTime : Int
  realMemory : Int
deriving DecidableEq

/-- A process record whose only distinguishing feature is its pid, as in the
Go tests (`Process{PID: "abc"}`). -/
def onlyPid (s : String) : Process :=
  ⟨s, 0, 0, 0⟩

/-- First loop of `updateProcesses` (src/main.go:360-376): each pid present
in `old` is written into the `found` slot array at its old slot, every other
pid is appended to `missing`.  The Go write `found[id] = p.PID` panics when
`id` is outside `[0, len(found))`; the panic is modelled by `none`. -/
def buildFound (old : IdentityMap) :
    List Process → List String → List String → Option (List String × List String)
  | [], found, missing => some (found, missing)
  | p :: rest, found, missing =>
    match mapLookup old p.pid with
    | some id =>
      if 0 ≤ id ∧ id < (found.length : Int) then
        buildFound old rest (found.set id.toNat p.pid) missing
      else none
    | none => buildFound old rest found (missing ++ [p.pid])

/-- Second loop of `updateProcesses` (src/main.go:378-388): scan the slot
array in index order; a non-empty cell keeps its pid, an empty cell receives
the next still-unassigned missing pid (if any).  Returns the built map and
the final missing-cursor `j`. -/
def scanSlots (missing : List String) :
    List String → Nat → Nat → IdentityMap → IdentityMap × Nat
  | [], _, j, updated => (updated, j)
  | pid :: rest, i, j, updated =>
    if pid = "" then
      if missing.length ≤ j then
        scanSlots missing rest (i + 1) j updated
      else
        scanSlots missing rest (i + 1) (j + 1)
          (mapInsert updated (missing.getD j "") (i : Int))
    else
      scanSlots missing rest (i + 1) j (mapInsert updated pid (i : Int))

/-- Overflow loop of `updateProcesses` (src/main.go:394-399): missing pids
left over after the scan get consecutive slots starting at `count`
(`count = len(found)`). -/
def assignOverflow (count : Nat) :
    List String → Nat → IdentityMap → IdentityMap
  | [], _, updated => updated
  | pid :: rest, i, updated =>
    assignOverflow count rest (i + 1) (mapInsert updated pid ((count + i : Nat) : Int))

/-- `updateProcesses` (src/main.go:349-402): rebuild the pid-to-slot map for
the current process list.  The input list is truncated to `maxProcesses`
entries, surviving pids keep their slots, new pids fill empty slots in index
order, and left-over new pids overflow past `maxProcesses`.  `none` models
the index-out-of-range panic of `found[id] = p.PID`. -/
def updateProcesses (old : IdentityMap) (processes : List Process)
    (maxProcesses : Nat) : Option IdentityMap :=
  match buildFound old (processes.take maxProcesses)
      (List.replicate maxProcesses "") [] with
  | none => none
  | some (found, missing) =>
    match scanSlots missing found 0 0 [] with
    | (updated, j) =>
      if j < missing.length then
        some (assignOverflow found.length (missing.drop j) 0 updated)
      else
        some updated

/-- The pids of the processes that have no entry in `old`, in input order
(the contents of the Go `missing` slice). -/
def missedOf (old : IdentityMap) (ps : List Process) : List String :=
  (ps.filter (fun p => (mapLookup old p.pid).isNone)).map (fun p => p.pid)

-- Sanity checks replicating the Go test suite (main_test.go).

-- "empty input": {} / [abc cdf dfe] / 3.
example :
    updateProcesses [] [onlyPid "abc", onlyPid "cdf", onlyPid "dfe"] 3 =
      some [("abc", 0), ("cdf", 1), ("dfe", 2)] := by decide

-- "1:1": {abc:0 cdf:1 dfe:2} / [abc cdf dfe] / 6.
example :
    updateProcesses [("abc", 0), ("cdf", 1), ("dfe", 2)]
        [onlyPid "abc", onlyPid "cdf", onlyPid "dfe"] 6 =
      some [("abc", 0), ("cdf", 1), ("dfe", 2)] := by decide

-- "first process killed": {abc:0 cdf:1 dfe:2} / [cdf dfe] / 3.
example :
    updateProcesses [("abc", 0), ("cdf", 1), ("dfe", 2)]
        [onlyPid "cdf", onlyPid "dfe"] 3 =
      some [("cdf", 1), ("dfe", 2)] := by decide

-- TestInsertingNewProcesses (spec Scenario B).
example :
    updateProcesses [("abc", 0), ("cdf", 1), ("dfe", 2), ("efg", 3)]
        [onlyPid "abc", onlyPid "dfe", onlyPid "newPID", onlyPid "newPID2"] 6 =
      some [("abc", 0), ("newPID", 1), ("dfe", 2), ("newPID2", 3)] := by decide

-- TestProcessSurgeOverMaxProcesses (spec Scenario C), first poll.
example :
    updateProcesses [("abc", 0), ("def", 1), ("hij", 2)]
        [onlyPid "abc", onlyPid "def", onlyPid "hij", onlyPid "klm"] 3 =
      some [("abc", 0), ("def", 1), ("hij", 2)] := by decide

-- Scenario C, second poll.
example :
    updateProcesses [("abc", 0), ("def", 1), ("hij", 2)]
        [onlyPid "abc", onlyPid "def", onlyPid "klm"] 3 =
      some [("abc", 0), ("def", 1), ("klm", 2)] := by decide

-- A previous slot at or beyond maxProcesses panics (found[2] on len 1).
example : updateProcesses [("a", 2)] [onlyPid "a"] 1 = none := by decide

-- ### Basic lemmas about the map embedding

theorem mapLookup_mapInsert (m : IdentityMap) (k : String) (v : Int) (key : String) :
    mapLookup (mapInsert m k v) key = if k = key then some v else mapLookup m key := by
  induction m with
  | nil =>
    by_cases h : k = key <;> simp [mapInsert, mapLookup, h]
  | cons kv rest ih =>
    obtain ⟨k₀, v₀⟩ := kv
    by_cases h : k₀ = k <;> by_cases h₂ : k = key <;> by_cases h₃ : k₀ = key <;>
      simp_all [mapInsert, mapLookup]

/-- The key list of an embedded Go map. -/
def mapKeys (m : IdentityMap) : List String :=
  m.map (fun kv => kv.1)

theorem mapLookup_eq_none_iff (m : IdentityMap) (k : String) :
    mapLookup m k = none ↔ k ∉ mapKeys m := by
  induction m with
  | nil => simp [mapLookup, mapKeys]
  | cons kv rest ih =>
    obtain ⟨k₀, v₀⟩ := kv
    constructor
    · intro hl hm
      rw [mapLookup] at hl
      rw [mapKeys, List.map_cons, List.mem_cons] at hm
      by_cases h : k₀ = k
      · simp [h] at hl
      · rw [if_neg h] at hl
        rcases hm with hm | hm
        · exact h hm.symm
        · exact (ih.1 hl) hm
    · intro hm
      rw [mapKeys, List.map_cons, List.mem_cons] at hm
      push_neg at hm
      rw [mapLookup, if_neg (fun h => hm.1 h.symm)]
      exact ih.2 hm.2

theorem mapLookup_isSome_iff (m : IdentityMap) (k : String) :
    (mapLookup m k).isSome ↔ k ∈ mapKeys m := by
  rw [← Decidable.not_iff_not, ← mapLookup_eq_none_iff]
  simp [Option.isSome_iff_ne_none]

theorem mapKeys_mapInsert (m : IdentityMap) (k : String) (v : Int) :
    mapKeys (mapInsert m k v) =
      if (mapLookup m k).isSome then mapKeys m else mapKeys m ++ [k] := by
  induction m with
  | nil => simp [mapInsert, mapKeys, mapLookup]
  | cons kv rest ih =>
    obtain ⟨k₀, v₀⟩ := kv
    by_cases h : k₀ = k <;> simp [mapInsert, mapKeys, mapLookup, h] at ih ⊢
    by_cases h₂ : (mapLookup rest k).isSome <;> simp [h₂] at ih ⊢ <;> simp [ih]

theorem nodup_mapKeys_mapInsert (m : IdentityMap) (k : String) (v : Int)
    (h : (mapKeys m).Nodup) : (mapKeys (mapInsert m k v)).Nodup := by
  rw [mapKeys_mapInsert]
  by_cases hs : (mapLookup m k).isSome <;> simp [hs, h]
  rw [mapLookup_isSome_iff] at hs
  refine List.Nodup.append h (by simp) ?_
  intro a ha hb
  rw [List.mem_singleton] at hb
  exact hs (hb ▸ ha)

theorem length_mapKeys (m : IdentityMap) : (mapKeys m).length = m.length := by
  simp [mapKeys]

-- ### Counting helpers for the slot array

/-- Number of non-empty cells of the slot array. -/
def nonemptyCount (found : List String) : Nat :=
  found.countP (fun c => !(c == ""))

/-- Number of empty cells of the slot array. -/
def emptyCount (found : List String) : Nat :=
  found.countP (fun c => c == "")

/-- Index of the `(m+1)`-th empty cell of the slot array, counted in
increasing index order (the cell into which the scan loop puts the
`(m+1)`-th consumed missing pid). -/
def nthEmpty : List String → Nat → Nat
  | [], _ => 0
  | c :: rest, m =>
    if c = "" then
      match m with
      | 0 => 0
      | m' + 1 => nthEmpty rest m' + 1
    else nthEmpty rest m + 1

theorem nthEmpty_cons_empty_zero (rest : List String) :
    nthEmpty ("" :: rest) 0 = 0 := by
  simp [nthEmpty]

theorem nthEmpty_cons_empty_succ (rest : List String) (m : Nat) :
    nthEmpty ("" :: rest) (m + 1) = nthEmpty rest m + 1 := by
  simp [nthEmpty]

theorem nthEmpty_cons_ne (c : String) (rest : List String) (m : Nat) (h : c ≠ "") :
    nthEmpty (c :: rest) m = nthEmpty rest m + 1 := by
  simp [nthEmpty, h]

theorem emptyCount_add_nonemptyCount (found : List String) :
    emptyCount found + nonemptyCount found = found.length := by
  induction found with
  | nil => simp [emptyCount, nonemptyCount]
  | cons c rest ih =>
    by_cases h : c = "" <;>
      simp [emptyCount, nonemptyCount, List.countP_cons, h] at ih ⊢ <;> omega

theorem emptyCount_cons_empty (rest : List String) :
    emptyCount ("" :: rest) = emptyCount rest + 1 := by
  simp [emptyCount, List.countP_cons]

theorem emptyCount_cons_ne (c : String) (rest : List String) (h : c ≠ "") :
    emptyCount (c :: rest) = emptyCount rest := by
  simp [emptyCount, List.countP_cons, h]

theorem nthEmpty_lt_length (found : List String) (m : Nat) (h : m < emptyCount found) :
    nthEmpty found m < found.length := by
  induction found generalizing m with
  | nil => simp [emptyCount] at h
  | cons c rest ih =>
    by_cases hc : c = ""
    · subst hc
      cases m with
      | zero => simp [nthEmpty_cons_empty_zero]
      | succ m' =>
        rw [emptyCount_cons_empty] at h
        have := ih m' (by omega)
        rw [nthEmpty_cons_empty_succ]
        simpa using this
    · rw [emptyCount_cons_ne c rest hc] at h
      have := ih m h
      rw [nthEmpty_cons_ne c rest m hc]
      simpa using this

theorem getD_nthEmpty (found : List String) (m : Nat) (h : m < emptyCount found) :
    found.getD (nthEmpty found m) "" = "" := by
  induction found generalizing m with
  | nil => simp [emptyCount] at h
  | cons c rest ih =>
    by_cases hc : c = ""
    · subst hc
      cases m with
      | zero => rw [nthEmpty_cons_empty_zero, List.getD_cons_zero]
      | succ m' =>
        rw [emptyCount_cons_empty] at h
        rw [nthEmpty_cons_empty_succ, List.getD_cons_succ]
        exact ih m' (by omega)
    · rw [emptyCount_cons_ne c rest hc] at h
      rw [nthEmpty_cons_ne c rest m hc, List.getD_cons_succ]
      exact ih m h

theorem nthEmpty_lt_nthEmpty (found : List String) (m₁ m₂ : Nat)
    (h : m₁ < m₂) (h₂ : m₂ < emptyCount found) :
    nthEmpty found m₁ < nthEmpty found m₂ := by
  induction found generalizing m₁ m₂ with
  | nil => simp [emptyCount] at h₂
  | cons c rest ih =>
    by_cases hc : c = ""
    · subst hc
      rw [emptyCount_cons_empty] at h₂
      cases m₂ with
      | zero => omega
      | succ m₂' =>
        cases m₁ with
        | zero => rw [nthEmpty_cons_empty_zero, nthEmpty_cons_empty_succ]; omega
        | succ m₁' =>
          rw [nthEmpty_cons_empty_succ, nthEmpty_cons_empty_succ]
          have := ih m₁' m₂' (by omega) (by omega)
          omega
    · rw [emptyCount_cons_ne c rest hc] at h₂
      rw [nthEmpty_cons_ne c rest m₁ hc, nthEmpty_cons_ne c rest m₂ hc]
      have := ih m₁ m₂ h h₂
      omega

-- ### Characterization of the first loop (buildFound)

/-- The pid that the first loop of `updateProcesses` leaves in slot `t`:
the pid of the last process of `ps` whose entry in `old` is slot `t`, if
any process writes that slot at all. -/
def lastWriter (old : IdentityMap) (t : Int) : List Process → Option String
  | [] => none
  | p :: rest =>
    match lastWriter old t rest with
    | some k => some k
    | none => if mapLookup old p.pid = some t then some p.pid else none

theorem lastWriter_eq_some (old : IdentityMap) (t : Int) (ps : List Process)
    (k : String) (h : lastWriter old t ps = some k) :
    ∃ p ∈ ps, p.pid = k ∧ mapLookup old p.pid = some t := by
  induction ps with
  | nil => simp [lastWriter] at h
  | cons p rest ih =>
    rw [lastWriter] at h
    cases hr : lastWriter old t rest with
    | some k' =>
      rw [hr] at h
      obtain ⟨q, hq, hqk, hql⟩ := ih (hr.trans (by injection h; simp [*]))
      exact ⟨q, List.mem_cons_of_mem p hq, hqk, hql⟩
    | none =>
      rw [hr] at h
      by_cases hl : mapLookup old p.pid = some t
      · rw [if_pos hl] at h
        injection h with h
        exact ⟨p, List.mem_cons_self p rest, h, hl⟩
      · rw [if_neg hl] at h
        cases h

theorem lastWriter_eq_none_iff (old : IdentityMap) (t : Int) (ps : List Process) :
    lastWriter old t ps = none ↔ ∀ p ∈ ps, mapLookup old p.pid ≠ some t := by
  induction ps with
  | nil => simp [lastWriter]
  | cons p rest ih =>
    rw [lastWriter]
    cases hr : lastWriter old t rest with
    | some k' =>
      simp only []
      constructor
      · intro h; cases h
      · intro h
        exact absurd (ih.2 (fun q hq => h q (List.mem_cons_of_mem p hq))) (by simp [hr])
    | none =>
      simp only []
      by_cases hl : mapLookup old p.pid = some t
      · simp [hl]
      · simp only [if_neg hl]
        constructor
        · intro _ q hq
          rcases List.mem_cons.1 hq with rfl | hq'
          · exact hl
          · exact (ih.1 hr) q hq'
        · intro _; trivial

theorem lastWriter_of_mem (old : IdentityMap) (t : Int) (ps : List Process)
    (p : Process) (hp : p ∈ ps) (hl : mapLookup old p.pid = some t)
    (huniq : ∀ q ∈ ps, mapLookup old q.pid = some t → q.pid = p.pid) :
    lastWriter old t ps = some p.pid := by
  induction ps with
  | nil => cases hp
  | cons q rest ih =>
    rw [lastWriter]
    cases hr : lastWriter old t rest with
    | some k =>
      obtain ⟨q', hq', hq'k, hq'l⟩ := lastWriter_eq_some old t rest k hr
      rw [← hq'k, huniq q' (List.mem_cons_of_mem q hq') hq'l]
    | none =>
      rcases List.mem_cons.1 hp with rfl | hp'
      · simp [hl]
      · have := ih hp' (fun q' hq' hq'l => huniq q' (List.mem_cons_of_mem q hq') hq'l)
        rw [hr] at this
        cases this

theorem buildFound_cell (old : IdentityMap) (ps : List Process) :
    ∀ found missing f miss,
      buildFound old ps found missing = some (f, miss) →
      ∀ t : Nat, t < found.length →
        f.getD t "" = (lastWriter old ((t : Int)) ps).getD (found.getD t "") := by
  induction ps with
  | nil =>
    intro found missing f miss h t ht
    rw [buildFound] at h
    injection h with h
    injection h with h₁ h₂
    subst h₁
    simp [lastWriter]
  | cons p rest ih =>
    intro found missing f miss h t ht
    rw [buildFound] at h
    cases hl : mapLookup old p.pid with
    | some id =>
      rw [hl] at h
      dsimp only at h
      by_cases hr : 0 ≤ id ∧ id < (found.length : Int)
      · rw [if_pos hr] at h
        have hcell := ih (found.set id.toNat p.pid) missing f miss h t
          (by rw [List.length_set]; exact ht)
        rw [lastWriter]
        cases hw : lastWriter old ((t : Int)) rest with
        | some k => rw [hw] at hcell; simpa using hcell
        | none =>
          rw [hw] at hcell
          simp only [Option.getD_some, Option.getD_none] at hcell ⊢
          by_cases hit : id = (t : Int)
          · have hidt : id.toNat = t := by rw [hit]; rfl
            rw [hcell, List.getD_eq_getElem?_getD, hidt,
              List.getElem?_set_eq_of_lt p.pid ht, hl, hit]
            simp
          · have hidt : id.toNat ≠ t := by
              intro heq
              apply hit
              rw [← Int.toNat_of_nonneg hr.1, heq]
            rw [hcell, List.getD_eq_getElem?_getD, List.getElem?_set_ne hidt,
              ← List.getD_eq_getElem?_getD, hl]
            rw [if_neg (fun hh => hit (Option.some.inj hh))]
            simp
      · rw [if_neg hr] at h
        cases h
    | none =>
      rw [hl] at h
      dsimp only at h
      have hcell := ih found (missing ++ [p.pid]) f miss h t ht
      rw [lastWriter]
      cases hw : lastWriter old ((t : Int)) rest with
      | some k => rw [hw] at hcell; simpa using hcell
      | none =>
        rw [hw] at hcell
        simp only [hl]
        simpa using hcell

theorem missedOf_cons_some (old : IdentityMap) (p : Process) (rest : List Process)
    (id : Int) (hl : mapLookup old p.pid = some id) :
    missedOf old (p :: rest) = missedOf old rest := by
  simp [missedOf, List.filter_cons, hl]

theorem missedOf_cons_none (old : IdentityMap) (p : Process) (rest : List Process)
    (hl : mapLookup old p.pid = none) :
    missedOf old (p :: rest) = p.pid :: missedOf old rest := by
  simp [missedOf, List.filter_cons, hl]

theorem countP_set_le (p : String → Bool) (l : List String) (n : Nat) (v : String) :
    (l.set n v).countP p ≤ l.countP p + 1 := by
  induction l generalizing n with
  | nil => simp
  | cons a t ih =>
    cases n with
    | zero =>
      simp only [List.set_cons_zero, List.countP_cons]
      by_cases hv : p v <;> by_cases ha : p a <;> simp [hv, ha] <;> omega
    | succ n' =>
      simp only [List.set_cons_succ, List.countP_cons]
      have := ih n'
      omega

theorem buildFound_ok (old : IdentityMap) (ps : List Process) :
    ∀ found missing,
      (∀ p ∈ ps, ∀ s, mapLookup old p.pid = some s → 0 ≤ s ∧ s < (found.length : Int)) →
      ∃ f, buildFound old ps found missing = some (f, missing ++ missedOf old ps) ∧
        f.length = found.length := by
  induction ps with
  | nil =>
    intro found missing h
    exact ⟨found, by simp [buildFound, missedOf], rfl⟩
  | cons p rest ih =>
    intro found missing h
    cases hl : mapLookup old p.pid with
    | some id =>
      have hr := h p (List.mem_cons_self p rest) id hl
      obtain ⟨f, hf, hlen⟩ := ih (found.set id.toNat p.pid) missing
        (by
          intro q hq s hs
          have := h q (List.mem_cons_of_mem p hq) s hs
          simpa [List.length_set] using this)
      refine ⟨f, ?_, by simpa [List.length_set] using hlen⟩
      rw [buildFound, hl]
      dsimp only
      rw [if_pos hr, hf, missedOf_cons_some old p rest id hl]
    | none =>
      obtain ⟨f, hf, hlen⟩ := ih found (missing ++ [p.pid])
        (fun q hq s hs => h q (List.mem_cons_of_mem p hq) s hs)
      refine ⟨f, ?_, hlen⟩
      rw [buildFound, hl]
      dsimp only
      rw [hf, missedOf_cons_none old p rest hl, List.append_assoc]
      rfl

theorem buildFound_inRange (old : IdentityMap) (ps : List Process) :
    ∀ found missing f miss,
      buildFound old ps found missing = some (f, miss) →
      ∀ p ∈ ps, ∀ s, mapLookup old p.pid = some s → 0 ≤ s ∧ s < (found.length : Int) := by
  induction ps with
  | nil =>
    intro found missing f miss h p hp
    cases hp
  | cons q rest ih =>
    intro found missing f miss h p hp s hs
    rw [buildFound] at h
    cases hl : mapLookup old q.pid with
    | some id =>
      rw [hl] at h
      dsimp only at h
      by_cases hr : 0 ≤ id ∧ id < (found.length : Int)
      · rw [if_pos hr] at h
        rcases List.mem_cons.1 hp with rfl | hp'
        · rw [hl] at hs
          injection hs with hs
          subst hs
          exact hr
        · have := ih _ _ _ _ h p hp' s hs
          simpa [List.length_set] using this
      · rw [if_neg hr] at h
        cases h
    | none =>
      rw [hl] at h
      dsimp only at h
      rcases List.mem_cons.1 hp with rfl | hp'
      · rw [hl] at hs
        cases hs
      · exact ih _ _ _ _ h p hp' s hs

theorem buildFound_count (old : IdentityMap) (ps : List Process) :
    ∀ found missing f miss,
      buildFound old ps found missing = some (f, miss) →
      nonemptyCount f + miss.length ≤
        nonemptyCount found + missing.length + ps.length := by
  induction ps with
  | nil =>
    intro found missing f miss h
    rw [buildFound] at h
    injection h with h
    injection h with h₁ h₂
    subst h₁
    subst h₂
    simp
  | cons p rest ih =>
    intro found missing f miss h
    rw [buildFound] at h
    cases hl : mapLookup old p.pid with
    | some id =>
      rw [hl] at h
      dsimp only at h
      by_cases hr : 0 ≤ id ∧ id < (found.length : Int)
      · rw [if_pos hr] at h
        have hrec := ih _ _ _ _ h
        have hset : nonemptyCount (found.set id.toNat p.pid) ≤ nonemptyCount found + 1 := by
          unfold nonemptyCount
          exact countP_set_le _ found id.toNat p.pid
        simp only [List.length_cons]
        omega
      · rw [if_neg hr] at h
        cases h
    | none =>
      rw [hl] at h
      dsimp only at h
      have hrec := ih _ _ _ _ h
      have hml : (missing ++ [p.pid]).length = missing.length + 1 := by simp
      rw [hml] at hrec
      simp only [List.length_cons]
      omega

theorem buildFound_length (old : IdentityMap) (ps : List Process) :
    ∀ found missing f miss,
      buildFound old ps found missing = some (f, miss) → f.length = found.length := by
  induction ps with
  | nil =>
    intro found missing f miss h
    rw [buildFound] at h
    injection h with h
    injection h with h₁ h₂
    subst h₁
    rfl
  | cons p rest ih =>
    intro found missing f miss h
    rw [buildFound] at h
    cases hl : mapLookup old p.pid with
    | some id =>
      rw [hl] at h
      dsimp only at h
      by_cases hr : 0 ≤ id ∧ id < (found.length : Int)
      · rw [if_pos hr] at h
        have := ih _ _ _ _ h
        simpa [List.length_set] using this
      · rw [if_neg hr] at h
        cases h
    | none =>
      rw [hl] at h
      dsimp only at h
      exact ih _ _ _ _ h

-- ### Characterization of the scan loop (scanSlots)

theorem getD_mem_drop (l : List String) (j : Nat) (d : String) (h : j < l.length) :
    l.getD j d ∈ l.drop j := by
  induction l generalizing j with
  | nil => simp at h
  | cons a t ih =>
    cases j with
    | zero => simp
    | succ j' =>
      rw [List.getD_cons_succ, List.drop_succ_cons]
      exact ih j' (by simpa using h)

theorem drop_succ_subset (l : List String) (j : Nat) : l.drop (j + 1) ⊆ l.drop j := by
  induction l generalizing j with
  | nil => simp
  | cons a t ih =>
    cases j with
    | zero =>
      rw [List.drop_succ_cons, List.drop_zero]
      exact List.subset_cons_self a t
    | succ j' =>
      rw [List.drop_succ_cons, List.drop_succ_cons]
      exact ih j'

theorem drop_subset_of_le (l : List String) (j n : Nat) (h : j ≤ n) :
    l.drop n ⊆ l.drop j := by
  induction n with
  | zero =>
    have : j = 0 := by omega
    subst this
    exact fun x hx => hx
  | succ n' ih =>
    rcases Nat.lt_or_ge j (n' + 1) with hlt | hge
    · exact fun x hx => ih (by omega) (drop_succ_subset l n' hx)
    · have : j = n' + 1 := by omega
      subst this
      exact fun x hx => hx

theorem mem_of_getD_drop (l : List String) (j n : Nat) (k : String)
    (h : n < l.length) (hj : j ≤ n) (hk : l.getD n k = k) : k ∈ l.drop j := by
  have h₁ : l.getD n k ∈ l.drop n := getD_mem_drop l n k h
  rw [hk] at h₁
  exact drop_subset_of_le l j n hj h₁

theorem scanSlots_frame (missing : List String) :
    ∀ found i j u k,
      (k = "" ∨ k ∉ found) → k ∉ missing.drop j →
      mapLookup (scanSlots missing found i j u).1 k = mapLookup u k := by
  intro found
  induction found with
  | nil =>
    intro i j u k h hm
    rw [scanSlots]
  | cons c rest ih =>
    intro i j u k h hm
    have hrest : k = "" ∨ k ∉ rest := by
      rcases h with h | h
      · exact Or.inl h
      · exact Or.inr (fun hk => h (List.mem_cons_of_mem c hk))
    rw [scanSlots]
    by_cases hc : c = ""
    · rw [if_pos hc]
      by_cases hj : missing.length ≤ j
      · rw [if_pos hj]
        exact ih (i + 1) j u k hrest hm
      · rw [if_neg hj]
        have hne : missing.getD j "" ≠ k := by
          intro hk
          exact hm (hk ▸ getD_mem_drop missing j "" (by omega))
        have hm' : k ∉ missing.drop (j + 1) := fun hk => hm (drop_succ_subset missing j hk)
        rw [ih (i + 1) (j + 1) _ k hrest hm', mapLookup_mapInsert, if_neg hne]
    · rw [if_neg hc]
      have hne : c ≠ k := by
        rcases h with h | h
        · exact h ▸ hc
        · exact fun hk => h (hk ▸ List.mem_cons_self c rest)
      rw [ih (i + 1) j _ k hrest hm, mapLookup_mapInsert, if_neg hne]

theorem scanSlots_j (missing : List String) :
    ∀ found i j u, j ≤ missing.length →
      (scanSlots missing found i j u).2 = min (j + emptyCount found) missing.length := by
  intro found
  induction found with
  | nil =>
    intro i j u hj
    rw [scanSlots]
    simp [emptyCount]
    omega
  | cons c rest ih =>
    intro i j u hj
    rw [scanSlots]
    by_cases hc : c = ""
    · subst hc
      rw [if_pos rfl, emptyCount_cons_empty]
      by_cases hjl : missing.length ≤ j
      · rw [if_pos hjl, ih (i + 1) j u hj]
        omega
      · rw [if_neg hjl, ih (i + 1) (j + 1) _ (by omega)]
        omega
    · rw [if_neg hc, emptyCount_cons_ne c rest hc, ih (i + 1) j _ hj]


theorem scanSlots_lookup_cell (missing : List String) :
    ∀ found i j u k t,
      k ≠ "" → t < found.length → found.getD t "" = k →
      (∀ t₂, t₂ < found.length → found.getD t₂ "" = k → t₂ = t) →
      k ∉ missing →
      mapLookup (scanSlots missing found i j u).1 k = some ((i + t : Nat) : Int) := by
  intro found
  induction found with
  | nil =>
    intro i j u k t hk ht
    simp at ht
  | cons c rest ih =>
    intro i j u k t hk ht hcell huniq hm
    rw [scanSlots]
    cases t with
    | zero =>
      rw [List.getD_cons_zero] at hcell
      subst hcell
      rw [if_neg hk]
      have hnr : c ∉ rest := by
        intro hkr
        obtain ⟨n, hn, hval⟩ := List.getElem_of_mem hkr
        have hgd : (c :: rest).getD (n + 1) "" = c := by
          rw [List.getD_cons_succ, List.getD_eq_getElem?_getD, List.getElem?_eq_getElem hn]
          simpa using hval
        have := huniq (n + 1) (by simpa using hn) hgd
        omega
      have hdj : c ∉ missing.drop j := fun hkm => hm (List.drop_subset j missing hkm)
      rw [scanSlots_frame missing rest (i + 1) j _ c (Or.inr hnr) hdj,
        mapLookup_mapInsert, if_pos rfl, Nat.add_zero]
    | succ t' =>
      rw [List.getD_cons_succ] at hcell
      have hck : c ≠ k := by
        intro hck
        have := huniq 0 (by simp) (by rw [List.getD_cons_zero]; exact hck)
        omega
      have harith : (i + 1) + t' = i + (t' + 1) := by omega
      have huniq' : ∀ t₂, t₂ < rest.length → rest.getD t₂ "" = k → t₂ = t' := by
        intro t₂ h₂ hv
        have := huniq (t₂ + 1) (by simpa using h₂) (by rw [List.getD_cons_succ]; exact hv)
        omega
      by_cases hc : c = ""
      · rw [if_pos hc]
        by_cases hj : missing.length ≤ j
        · rw [if_pos hj, ih (i + 1) j u k t' hk (by simpa using ht) hcell huniq' hm, harith]
        · rw [if_neg hj, ih (i + 1) (j + 1) _ k t' hk (by simpa using ht) hcell huniq' hm,
            harith]
      · rw [if_neg hc, ih (i + 1) j _ k t' hk (by simpa using ht) hcell huniq' hm, harith]

theorem scanSlots_lookup_missing (missing : List String) :
    ∀ found i j u k r,
      j ≤ r → r < missing.length → missing.getD r "" = k →
      (∀ r₂, r₂ < missing.length → missing.getD r₂ "" = k → r₂ = r) →
      (k = "" ∨ k ∉ found) →
      r - j < emptyCount found →
      mapLookup (scanSlots missing found i j u).1 k =
        some ((i + nthEmpty found (r - j) : Nat) : Int) := by
  intro found
  induction found with
  | nil =>
    intro i j u k r hjr hr hk huniq hcf hcount
    simp [emptyCount] at hcount
  | cons c rest ih =>
    intro i j u k r hjr hr hk huniq hcf hcount
    have hrestcf : k = "" ∨ k ∉ rest := by
      rcases hcf with h | h
      · exact Or.inl h
      · exact Or.inr (fun hx => h (List.mem_cons_of_mem c hx))
    rw [scanSlots]
    by_cases hc : c = ""
    · subst hc
      rw [if_pos rfl, if_neg (by omega)]
      by_cases hjeq : r = j
      · subst hjeq
        have hnr : k ∉ missing.drop (r + 1) := by
          intro hkm
          obtain ⟨n, hn, hval⟩ := List.getElem_of_mem hkm
          rw [List.getElem_drop] at hval
          have hlt : r + 1 + n < missing.length := by
            have := List.length_drop (r + 1) missing
            omega
          have hgd : missing.getD (r + 1 + n) "" = k := by
            rw [List.getD_eq_getElem?_getD, List.getElem?_eq_getElem hlt]
            simpa using hval
          have := huniq (r + 1 + n) hlt hgd
          omega
        rw [scanSlots_frame missing rest (i + 1) (r + 1) _ k hrestcf hnr,
          mapLookup_mapInsert, hk, if_pos rfl, Nat.sub_self,
          nthEmpty_cons_empty_zero, Nat.add_zero]
      · have hjr' : j + 1 ≤ r := by omega
        rw [emptyCount_cons_empty] at hcount
        have hne : missing.getD j "" ≠ k := by
          intro hkm
          have := huniq j (by omega) hkm
          omega
        obtain ⟨m, hm2⟩ : ∃ m, r - j = m + 1 := ⟨r - j - 1, by omega⟩
        have hm3 : r - (j + 1) = m := by omega
        rw [ih (i + 1) (j + 1) _ k r hjr' hr hk huniq hrestcf (by omega), hm3, hm2,
          nthEmpty_cons_empty_succ]
        congr 1
        omega
    · rw [if_neg hc]
      rw [emptyCount_cons_ne c rest hc] at hcount
      rw [ih (i + 1) j _ k r hjr hr hk huniq hrestcf hcount,
        nthEmpty_cons_ne c rest (r - j) hc]
      congr 1
      omega

theorem scanSlots_lookup_inv (missing : List String) :
    ∀ found i j u k v,
      mapLookup (scanSlots missing found i j u).1 k = some v →
      (k ≠ "" ∧ ∃ t, t < found.length ∧ found.getD t "" = k ∧ v = ((i + t : Nat) : Int)) ∨
      (∃ r, j ≤ r ∧ r < missing.length ∧ r - j < emptyCount found ∧
        missing.getD r "" = k ∧ v = ((i + nthEmpty found (r - j) : Nat) : Int)) ∨
      mapLookup u k = some v := by
  intro found
  induction found with
  | nil =>
    intro i j u k v h
    rw [scanSlots] at h
    exact Or.inr (Or.inr h)
  | cons c rest ih =>
    intro i j u k v h
    rw [scanSlots] at h
    by_cases hc : c = ""
    · subst hc
      rw [if_pos rfl] at h
      by_cases hj : missing.length ≤ j
      · rw [if_pos hj] at h
        rcases ih (i + 1) j u k v h with ⟨hk, t, ht, hcell, hv⟩ | ⟨r, hjr, hr, hcnt, hk, hv⟩ | hu
        · refine Or.inl ⟨hk, t + 1, by simpa using ht, ?_, ?_⟩
          · rw [List.getD_cons_succ]
            exact hcell
          · rw [hv]
            omega
        · exact absurd hr (by omega)
        · exact Or.inr (Or.inr hu)
      · rw [if_neg hj] at h
        rcases ih (i + 1) (j + 1) _ k v h with ⟨hk, t, ht, hcell, hv⟩ | ⟨r, hjr, hr, hcnt, hk, hv⟩ | hu
        · refine Or.inl ⟨hk, t + 1, by simpa using ht, ?_, ?_⟩
          · rw [List.getD_cons_succ]
            exact hcell
          · rw [hv]
            omega
        · refine Or.inr (Or.inl ⟨r, by omega, hr, ?_, hk, ?_⟩)
          · rw [emptyCount_cons_empty]
            omega
          · rw [hv]
            obtain ⟨m, hm2⟩ : ∃ m, r - j = m + 1 := ⟨r - j - 1, by omega⟩
            have hm3 : r - (j + 1) = m := by omega
            rw [hm3, hm2, nthEmpty_cons_empty_succ]
            omega
        · rw [mapLookup_mapInsert] at hu
          by_cases hkey : missing.getD j "" = k
          · rw [if_pos hkey] at hu
            injection hu with hu
            refine Or.inr (Or.inl ⟨j, le_refl j, by omega, ?_, hkey, ?_⟩)
            · rw [emptyCount_cons_empty]
              omega
            · rw [Nat.sub_self, nthEmpty_cons_empty_zero, ← hu]
              omega
          · rw [if_neg hkey] at hu
            exact Or.inr (Or.inr hu)
    · rw [if_neg hc] at h
      rcases ih (i + 1) j _ k v h with ⟨hk, t, ht, hcell, hv⟩ | ⟨r, hjr, hr, hcnt, hk, hv⟩ | hu
      · refine Or.inl ⟨hk, t + 1, by simpa using ht, ?_, ?_⟩
        · rw [List.getD_cons_succ]
          exact hcell
        · rw [hv]
          omega
      · refine Or.inr (Or.inl ⟨r, hjr, hr, ?_, hk, ?_⟩)
        · rw [emptyCount_cons_ne c rest hc]
          exact hcnt
        · rw [hv, nthEmpty_cons_ne c rest (r - j) hc]
          omega
      · rw [mapLookup_mapInsert] at hu
        by_cases hkey : c = k
        · rw [if_pos hkey] at hu
          injection hu with hu
          refine Or.inl ⟨hkey ▸ hc, 0, by simp, ?_, ?_⟩
          · rw [List.getD_cons_zero]
            exact hkey
          · rw [← hu]
            omega
        · rw [if_neg hkey] at hu
          exact Or.inr (Or.inr hu)

theorem scanSlots_nodup (missing : List String) :
    ∀ found i j u, (mapKeys u).Nodup →
      (mapKeys (scanSlots missing found i j u).1).Nodup := by
  intro found
  induction found with
  | nil =>
    intro i j u h
    rw [scanSlots]
    exact h
  | cons c rest ih =>
    intro i j u h
    rw [scanSlots]
    by_cases hc : c = ""
    · rw [if_pos hc]
      by_cases hj : missing.length ≤ j
      · rw [if_pos hj]
        exact ih _ _ _ h
      · rw [if_neg hj]
        exact ih _ _ _ (nodup_mapKeys_mapInsert _ _ _ h)
    · rw [if_neg hc]
      exact ih _ _ _ (nodup_mapKeys_mapInsert _ _ _ h)

-- ### Structural facts about updateProcesses

theorem replicate_getD (c t : Nat) :
    (List.replicate c ("" : String)).getD t "" = "" := by
  induction c generalizing t with
  | zero => simp
  | succ n ih =>
    rw [List.replicate_succ]
    cases t with
    | zero => rw [List.getD_cons_zero]
    | succ t' =>
      rw [List.getD_cons_succ]
      exact ih t'

theorem replicate_nonemptyCount (c : Nat) :
    nonemptyCount (List.replicate c "") = 0 := by
  induction c with
  | zero => simp [nonemptyCount]
  | succ n ih =>
    rw [List.replicate_succ]
    simp only [nonemptyCount, List.countP_cons] at ih ⊢
    simp [ih]

theorem mem_missedOf (old : IdentityMap) (ps : List Process) (k : String)
    (h : k ∈ missedOf old ps) : mapLookup old k = none := by
  unfold missedOf at h
  obtain ⟨q, hq, hqk⟩ := List.mem_map.1 h
  have := List.of_mem_filter hq
  rw [← hqk]
  simpa using this

theorem missedOf_subset_pids (old : IdentityMap) (ps : List Process) (k : String)
    (h : k ∈ missedOf old ps) : k ∈ ps.map (fun p => p.pid) := by
  unfold missedOf at h
  obtain ⟨q, hq, hqk⟩ := List.mem_map.1 h
  exact List.mem_map.2 ⟨q, List.mem_of_mem_filter hq, hqk⟩

theorem missedOf_nodup (old : IdentityMap) (ps : List Process)
    (h : (ps.map (fun p => p.pid)).Nodup) : (missedOf old ps).Nodup := by
  unfold missedOf
  have hsub : List.Sublist
      ((ps.filter (fun p => (mapLookup old p.pid).isNone)).map (fun p => p.pid))
      (ps.map (fun p => p.pid)) :=
    (List.filter_sublist ps).map _
  exact List.Nodup.sublist hsub h

theorem mem_missedOf_of_none (old : IdentityMap) (ps : List Process) (q : Process)
    (hq : q ∈ ps) (h : mapLookup old q.pid = none) : q.pid ∈ missedOf old ps := by
  unfold missedOf
  exact List.mem_map.2 ⟨q, List.mem_filter.2 ⟨hq, by simp [h]⟩, rfl⟩

theorem miss_le_emptyCount (old : IdentityMap) (P : List Process) (c : Nat)
    (f miss : List String)
    (hbf : buildFound old (P.take c) (List.replicate c "") [] = some (f, miss)) :
    miss.length ≤ emptyCount f := by
  have hcount := buildFound_count old (P.take c) _ _ _ _ hbf
  have hlen := buildFound_length old (P.take c) _ _ _ _ hbf
  rw [replicate_nonemptyCount] at hcount
  have h1 : (P.take c).length ≤ c := by
    rw [List.length_take]
    omega
  have h2 : f.length = c := by
    rw [hlen, List.length_replicate]
  have h3 := emptyCount_add_nonemptyCount f
  simp only [List.length_nil] at hcount
  omega

theorem updateProcesses_inv (old : IdentityMap) (P : List Process) (c : Nat)
    (m : IdentityMap) (hm : updateProcesses old P c = some m) :
    ∃ f, buildFound old (P.take c) (List.replicate c "") [] =
        some (f, missedOf old (P.take c)) ∧
      f.length = c ∧
      (scanSlots (missedOf old (P.take c)) f 0 0 []).2 =
        (missedOf old (P.take c)).length ∧
      m = (scanSlots (missedOf old (P.take c)) f 0 0 []).1 := by
  cases hbf : buildFound old (P.take c) (List.replicate c "") [] with
  | none =>
    rw [updateProcesses, hbf] at hm
    cases hm
  | some pr =>
    obtain ⟨f, miss⟩ := pr
    have hin := buildFound_inRange old (P.take c) _ _ _ _ hbf
    obtain ⟨f', hbf', hlen'⟩ := buildFound_ok old (P.take c) (List.replicate c "") [] hin
    rw [List.nil_append, hbf] at hbf'
    injection hbf' with h1
    injection h1 with hf hmiss
    subst hf
    subst hmiss
    have hle := miss_le_emptyCount old P c f _ hbf
    have hj := scanSlots_j (missedOf old (P.take c)) f 0 0 [] (by omega)
    have hj2 : (scanSlots (missedOf old (P.take c)) f 0 0 []).2 =
        (missedOf old (P.take c)).length := by
      rw [hj]
      omega
    refine ⟨f, rfl, by rw [buildFound_length old (P.take c) _ _ _ _ hbf, List.length_replicate],
      hj2, ?_⟩
    rw [updateProcesses, hbf] at hm
    dsimp only at hm
    rcases hsc : scanSlots (missedOf old (P.take c)) f 0 0 [] with ⟨u₀, j₀⟩
    rw [hsc] at hm hj2
    dsimp only at hm hj2 ⊢
    rw [if_neg (by omega)] at hm
    injection hm with hm
    exact hm.symm

theorem getD_mem (l : List String) (r : Nat) (h : r < l.length) : l.getD r "" ∈ l := by
  rw [List.getD_eq_getElem?_getD, List.getElem?_eq_getElem h]
  exact List.getElem_mem h

theorem inv_cell (old : IdentityMap) (P : List Process) (c : Nat) (f : List String)
    (hbf : buildFound old (P.take c) (List.replicate c "") [] =
      some (f, missedOf old (P.take c)))
    (t : Nat) (ht : t < c) :
    f.getD t "" = (lastWriter old (t : Int) (P.take c)).getD "" := by
  have := buildFound_cell old (P.take c) (List.replicate c "") [] f
    (missedOf old (P.take c)) hbf t (by rw [List.length_replicate]; exact ht)
  rw [replicate_getD] at this
  exact this

theorem cell_ne_empty (old : IdentityMap) (P : List Process) (c : Nat) (f : List String)
    (hbf : buildFound old (P.take c) (List.replicate c "") [] =
      some (f, missedOf old (P.take c)))
    (t : Nat) (ht : t < c) (k : String) (hk : k ≠ "") (hcell : f.getD t "" = k) :
    ∃ q ∈ P.take c, q.pid = k ∧ mapLookup old q.pid = some (t : Int) := by
  rw [inv_cell old P c f hbf t ht] at hcell
  cases hw : lastWriter old (t : Int) (P.take c) with
  | none =>
    rw [hw] at hcell
    simp only [Option.getD_none] at hcell
    exact absurd hcell.symm hk
  | some k₀ =>
    rw [hw] at hcell
    simp only [Option.getD_some] at hcell
    subst hcell
    exact lastWriter_eq_some old (t : Int) (P.take c) k₀ hw

theorem updateProcesses_lookup_retained (old : IdentityMap) (P : List Process) (c : Nat)
    (m : IdentityMap) (p : Process) (s : Int)
    (hm : updateProcesses old P c = some m)
    (hp : p ∈ P.take c)
    (hs : mapLookup old p.pid = some s)
    (hne : p.pid ≠ "")
    (huniq : ∀ q ∈ P.take c, mapLookup old q.pid = some s → q.pid = p.pid) :
    mapLookup m p.pid = some s := by
  obtain ⟨f, hbf, hflen, hj, hmeq⟩ := updateProcesses_inv old P c m hm
  have hin := buildFound_inRange old (P.take c) _ _ _ _ hbf p hp s hs
  rw [List.length_replicate] at hin
  have hs0 : 0 ≤ s := hin.1
  have hst : s.toNat < c := by omega
  have hwr : lastWriter old ((s.toNat : Nat) : Int) (P.take c) = some p.pid := by
    have hcast : ((s.toNat : Nat) : Int) = s := Int.toNat_of_nonneg hs0
    rw [hcast]
    exact lastWriter_of_mem old s (P.take c) p hp hs huniq
  have hcell : f.getD s.toNat "" = p.pid := by
    rw [inv_cell old P c f hbf s.toNat hst, hwr]
    rfl
  have huniqcell : ∀ t₂, t₂ < f.length → f.getD t₂ "" = p.pid → t₂ = s.toNat := by
    intro t₂ ht₂ hcell₂
    rw [hflen] at ht₂
    obtain ⟨q, hq, hqpid, hql⟩ := cell_ne_empty old P c f hbf t₂ ht₂ p.pid hne hcell₂
    rw [hqpid] at hql
    rw [hql] at hs
    injection hs with hs
    omega
  have hnm : p.pid ∉ missedOf old (P.take c) := by
    intro hmem
    rw [mem_missedOf old (P.take c) p.pid hmem] at hs
    cases hs
  have hlook := scanSlots_lookup_cell (missedOf old (P.take c)) f 0 0 [] p.pid s.toNat hne
    (by rw [hflen]; exact hst) hcell huniqcell hnm
  rw [hmeq, hlook]
  congr 1
  omega

theorem scan_lookup_new (old : IdentityMap) (P : List Process) (c : Nat)
    (m : IdentityMap) (f : List String) (r : Nat)
    (hbf : buildFound old (P.take c) (List.replicate c "") [] =
      some (f, missedOf old (P.take c)))
    (hflen : f.length = c)
    (hmeq : m = (scanSlots (missedOf old (P.take c)) f 0 0 []).1)
    (hnodup : ((P.take c).map (fun p => p.pid)).Nodup)
    (hr : r < (missedOf old (P.take c)).length) :
    mapLookup m ((missedOf old (P.take c)).getD r "") =
      some ((nthEmpty f r : Nat) : Int) := by
  have hkmem : (missedOf old (P.take c)).getD r "" ∈ missedOf old (P.take c) :=
    getD_mem _ r hr
  have hknone : mapLookup old ((missedOf old (P.take c)).getD r "") = none :=
    mem_missedOf old (P.take c) _ hkmem
  have hmissnodup : (missedOf old (P.take c)).Nodup := missedOf_nodup old (P.take c) hnodup
  have huniq : ∀ r₂, r₂ < (missedOf old (P.take c)).length →
      (missedOf old (P.take c)).getD r₂ "" = (missedOf old (P.take c)).getD r "" → r₂ = r := by
    intro r₂ hr₂ hval
    rw [List.getD_eq_getElem?_getD, List.getElem?_eq_getElem hr₂,
      List.getD_eq_getElem?_getD, List.getElem?_eq_getElem hr] at hval
    exact (List.Nodup.getElem_inj_iff hmissnodup).1 (by simpa using hval)
  have hcf : (missedOf old (P.take c)).getD r "" = "" ∨
      (missedOf old (P.take c)).getD r "" ∉ f := by
    by_cases hke : (missedOf old (P.take c)).getD r "" = ""
    · exact Or.inl hke
    · refine Or.inr ?_
      intro hkf
      obtain ⟨t, ht, hval⟩ := List.getElem_of_mem hkf
      have hcell : f.getD t "" = (missedOf old (P.take c)).getD r "" := by
        rw [List.getD_eq_getElem?_getD, List.getElem?_eq_getElem ht]
        simpa using hval
      obtain ⟨q, hq, hqpid, hql⟩ := cell_ne_empty old P c f hbf t (by omega) _ hke hcell
      rw [hqpid, hknone] at hql
      cases hql
  have hcnt : r - 0 < emptyCount f := by
    have := miss_le_emptyCount old P c f _ hbf
    omega
  have hlook := scanSlots_lookup_missing (missedOf old (P.take c)) f 0 0 [] _ r
    (by omega) hr rfl huniq hcf hcnt
  rw [hmeq, hlook, Nat.sub_zero, Nat.zero_add]

theorem updateProcesses_keys (old : IdentityMap) (P : List Process) (c : Nat)
    (m : IdentityMap)
    (hm : updateProcesses old P c = some m)
    (hnodup : ((P.take c).map (fun p => p.pid)).Nodup)
    (hnonempty : ∀ p ∈ P.take c, p.pid ≠ "")
    (hinj : ∀ p ∈ P.take c, ∀ q ∈ P.take c, ∀ s, mapLookup old p.pid = some s →
      mapLookup old q.pid = some s → p.pid = q.pid) :
    ∀ k, (mapLookup m k).isSome ↔ k ∈ (P.take c).map (fun p => p.pid) := by
  obtain ⟨f, hbf, hflen, hj, hmeq⟩ := updateProcesses_inv old P c m hm
  intro k
  constructor
  · intro hsome
    obtain ⟨v, hv⟩ := Option.isSome_iff_exists.1 hsome
    rw [hmeq] at hv
    rcases scanSlots_lookup_inv _ f 0 0 [] k v hv with
      ⟨hk, t, ht, hcell, _⟩ | ⟨r, _, hr, _, hkr, _⟩ | hnil
    · rw [hflen] at ht
      obtain ⟨q, hq, hqpid, _⟩ := cell_ne_empty old P c f hbf t ht k hk hcell
      exact List.mem_map.2 ⟨q, hq, hqpid⟩
    · refine missedOf_subset_pids old (P.take c) k ?_
      rw [← hkr]
      exact getD_mem _ r hr
    · simp [mapLookup] at hnil
  · intro hmem
    obtain ⟨q, hq, hqpid⟩ := List.mem_map.1 hmem
    cases hql : mapLookup old q.pid with
    | some s =>
      have hlook := updateProcesses_lookup_retained old P c m q s hm hq hql
        (hnonempty q hq) (fun q₂ hq₂ hq₂l => hinj q₂ hq₂ q hq s hq₂l hql)
      rw [← hqpid]
      simp [hlook]
    | none =>
      have hmem₂ : q.pid ∈ missedOf old (P.take c) := mem_missedOf_of_none old _ q hq hql
      obtain ⟨r, hr, hrval⟩ := List.getElem_of_mem hmem₂
      have hgd : (missedOf old (P.take c)).getD r "" = q.pid := by
        rw [List.getD_eq_getElem?_getD, List.getElem?_eq_getElem hr]
        simpa using hrval
      have hlook := scan_lookup_new old P c m f r hbf hflen hmeq hnodup hr
      rw [hgd] at hlook
      rw [← hqpid]
      simp [hlook]

theorem updateProcesses_slot_bounds (old : IdentityMap) (P : List Process) (c : Nat)
    (m : IdentityMap) (hm : updateProcesses old P c = some m) :
    ∀ k v, mapLookup m k = some v → 0 ≤ v ∧ v < (c : Int) := by
  obtain ⟨f, hbf, hflen, hj, hmeq⟩ := updateProcesses_inv old P c m hm
  intro k v hv
  rw [hmeq] at hv
  rcases scanSlots_lookup_inv _ f 0 0 [] k v hv with
    ⟨_, t, ht, _, hveq⟩ | ⟨r, _, _, hcnt, _, hveq⟩ | hnil
  · rw [hflen] at ht
    subst hveq
    omega
  · have hlt := nthEmpty_lt_length f (r - 0) hcnt
    rw [hflen] at hlt
    subst hveq
    omega
  · simp [mapLookup] at hnil

theorem updateProcesses_inj (old : IdentityMap) (P : List Process) (c : Nat)
    (m : IdentityMap) (hm : updateProcesses old P c = some m) :
    ∀ k₁ k₂ v, k₁ ≠ k₂ → mapLookup m k₁ = some v → mapLookup m k₂ = some v → False := by
  obtain ⟨f, hbf, hflen, hj, hmeq⟩ := updateProcesses_inv old P c m hm
  intro k₁ k₂ v hne h₁ h₂
  rw [hmeq] at h₁ h₂
  rcases scanSlots_lookup_inv _ f 0 0 [] k₁ v h₁ with
    ⟨hk₁, t₁, ht₁, hc₁, hv₁⟩ | ⟨r₁, _, hr₁, hcnt₁, hm₁, hv₁⟩ | hnil
  · rcases scanSlots_lookup_inv _ f 0 0 [] k₂ v h₂ with
      ⟨hk₂, t₂, ht₂, hc₂, hv₂⟩ | ⟨r₂, _, hr₂, hcnt₂, hm₂, hv₂⟩ | hnil
    · have hteq : t₁ = t₂ := by omega
      subst hteq
      rw [hc₁] at hc₂
      exact hne hc₂
    · have hteq : t₁ = nthEmpty f (r₂ - 0) := by omega
      have hempty := getD_nthEmpty f (r₂ - 0) hcnt₂
      rw [← hteq] at hempty
      rw [hempty] at hc₁
      exact hk₁ hc₁.symm
    · simp [mapLookup] at hnil
  · rcases scanSlots_lookup_inv _ f 0 0 [] k₂ v h₂ with
      ⟨hk₂, t₂, ht₂, hc₂, hv₂⟩ | ⟨r₂, _, hr₂, hcnt₂, hm₂, hv₂⟩ | hnil
    · have hteq : t₂ = nthEmpty f (r₁ - 0) := by omega
      have hempty := getD_nthEmpty f (r₁ - 0) hcnt₁
      rw [← hteq] at hempty
      rw [hempty] at hc₂
      exact hk₂ hc₂.symm
    · have hneq : nthEmpty f (r₁ - 0) = nthEmpty f (r₂ - 0) := by omega
      rcases Nat.lt_trichotomy (r₁ - 0) (r₂ - 0) with hlt | heq | hgt
      · have := nthEmpty_lt_nthEmpty f _ _ hlt hcnt₂
        omega
      · have hreq : r₁ = r₂ := by omega
        subst hreq
        rw [hm₁] at hm₂
        exact hne hm₂
      · have := nthEmpty_lt_nthEmpty f _ _ hgt hcnt₁
        omega
    · simp [mapLookup] at hnil
  · simp [mapLookup] at hnil

theorem updateProcesses_length (old : IdentityMap) (P : List Process) (c : Nat)
    (m : IdentityMap)
    (hm : updateProcesses old P c = some m)
    (hnodup : ((P.take c).map (fun p => p.pid)).Nodup)
    (hnonempty : ∀ p ∈ P.take c, p.pid ≠ "")
    (hinj : ∀ p ∈ P.take c, ∀ q ∈ P.take c, ∀ s, mapLookup old p.pid = some s →
      mapLookup old q.pid = some s → p.pid = q.pid) :
    m.length = (P.take c).length := by
  obtain ⟨f, hbf, hflen, hj, hmeq⟩ := updateProcesses_inv old P c m hm
  have hkeys := updateProcesses_keys old P c m hm hnodup hnonempty hinj
  have hnodupkeys : (mapKeys m).Nodup := by
    rw [hmeq]
    exact scanSlots_nodup _ f 0 0 [] (by simp [mapKeys])
  have hperm : List.Perm (mapKeys m) ((P.take c).map (fun p => p.pid)) := by
    rw [List.perm_ext_iff_of_nodup hnodupkeys hnodup]
    intro a
    rw [← mapLookup_isSome_iff]
    exact hkeys a
  have hlen := hperm.length_eq
  rw [length_mapKeys] at hlen
  rw [hlen, List.length_map]

-- ### The spec's lowest-free-slot rule (reference definition for C4)

/-- Modelled from the spec (§4.3 rule 2): the slots in `[0, c)` not held by
any retained pid of `ps`, in increasing order.  Under the spec's words the
`(r+1)`-th new pid receives the `(r+1)`-th of these slots.  This reference
definition follows the spec, to be compared with the behaviour of the
code's `updateProcesses`. -/
def specFreeSlots (old : IdentityMap) (ps : List Process) (c : Nat) : List Nat :=
  (List.range c).filter
    (fun t => decide (∀ p ∈ ps, mapLookup old p.pid ≠ some (t : Int)))

theorem filter_range_cons (c : String) (rest : List String) :
    (List.range (c :: rest).length).filter (fun t => (c :: rest).getD t "" == "") =
      (if c = "" then [0] else []) ++
        ((List.range rest.length).filter (fun t => rest.getD t "" == "")).map
          (fun t => t + 1) := by
  have h1 : (fun t => (c :: rest).getD t "" == "") ∘ (fun t => t + 1) =
      (fun t => rest.getD t "" == "") := by
    funext t
    simp only [Function.comp_apply, List.getD_cons_succ]
  have h2 : List.range (c :: rest).length =
      0 :: (List.range rest.length).map (fun t => t + 1) := by
    rw [List.length_cons, List.range_succ_eq_map]
  rw [h2, List.filter_cons, List.map_filter, h1]
  by_cases hc : c = ""
  · simp [hc]
  · simp [hc]

theorem filter_range_length (found : List String) :
    ((List.range found.length).filter (fun t => found.getD t "" == "")).length =
      emptyCount found := by
  induction found with
  | nil => simp [emptyCount]
  | cons c rest ih =>
    rw [filter_range_cons, List.length_append, List.length_map, ih]
    by_cases hc : c = ""
    · rw [if_pos hc, hc, emptyCount_cons_empty, List.length_singleton]
      omega
    · rw [if_neg hc, emptyCount_cons_ne c rest hc, List.length_nil]
      omega

theorem getD_map_succ (l : List Nat) (r : Nat) (h : r < l.length) :
    (l.map (fun t => t + 1)).getD r 0 = l.getD r 0 + 1 := by
  induction l generalizing r with
  | nil => simp at h
  | cons a t ih =>
    cases r with
    | zero => simp
    | succ r' =>
      rw [List.map_cons, List.getD_cons_succ, List.getD_cons_succ]
      exact ih r' (by simpa using h)

theorem nthEmpty_eq_filter_range (found : List String) :
    ∀ r, r < emptyCount found →
      ((List.range found.length).filter (fun t => found.getD t "" == "")).getD r 0 =
        nthEmpty found r := by
  induction found with
  | nil =>
    intro r hr
    simp [emptyCount] at hr
  | cons c rest ih =>
    intro r hr
    rw [filter_range_cons]
    by_cases hc : c = ""
    · subst hc
      rw [emptyCount_cons_empty] at hr
      rw [if_pos rfl]
      cases r with
      | zero =>
        rw [nthEmpty_cons_empty_zero]
        rfl
      | succ r' =>
        rw [nthEmpty_cons_empty_succ, List.singleton_append, List.getD_cons_succ,
          getD_map_succ _ r' (by rw [filter_range_length]; omega), ih r' (by omega)]
    · rw [emptyCount_cons_ne c rest hc] at hr
      rw [if_neg hc, List.nil_append,
        getD_map_succ _ r (by rw [filter_range_length]; exact hr), ih r hr,
        nthEmpty_cons_ne c rest r hc]

theorem nthEmpty_eq_specFreeSlots (old : IdentityMap) (P : List Process) (c : Nat)
    (f : List String)
    (hbf : buildFound old (P.take c) (List.replicate c "") [] =
      some (f, missedOf old (P.take c)))
    (hflen : f.length = c)
    (hnonempty : ∀ p ∈ P.take c, p.pid ≠ "")
    (r : Nat) (hr : r < emptyCount f) :
    nthEmpty f r = (specFreeSlots old (P.take c) c).getD r 0 := by
  rw [← nthEmpty_eq_filter_range f r hr, hflen]
  unfold specFreeSlots
  congr 1
  apply List.filter_congr
  intro t htmem
  rw [List.mem_range] at htmem
  rw [Bool.eq_iff_iff]
  simp only [beq_iff_eq, decide_eq_true_eq]
  constructor
  · intro hempty p hp hlook
    have hcell := inv_cell old P c f hbf t htmem
    cases hw : lastWriter old (t : Int) (P.take c) with
    | none =>
      rw [lastWriter_eq_none_iff] at hw
      exact hw p hp hlook
    | some k =>
      rw [hw] at hcell
      simp only [Option.getD_some] at hcell
      obtain ⟨q, hq, hqpid, _⟩ := lastWriter_eq_some old _ _ k hw
      rw [hempty] at hcell
      exact hnonempty q hq (hqpid.trans hcell.symm)
  · intro hall
    have hlw : lastWriter old (t : Int) (P.take c) = none :=
      (lastWriter_eq_none_iff old _ _).2 (fun p hp => hall p hp)
    have hcell := inv_cell old P c f hbf t htmem
    rw [hlw] at hcell
    simpa using hcell

-- ### Embedding of Exporter.Collect (src/main.go:261-292)

/-- Prometheus metric kinds used by the exporter. -/
inductive MetricKind where
  | gauge : MetricKind
  | counter : MetricKind
deriving DecidableEq

/-- One measurement sent on the collector's channel: metric name, kind,
value and label values, in emission order.  Every value the Go code emits
is an integer before its final `float64` conversion (the start-time uses Go
integer division by `microsecondsPerSecond`), so values are embedded as
`Int`. -/
structure Measurement where
  name : String
  kind : MetricKind
  value : Int
  labels : List String
deriving DecidableEq

/-- `Group` (src/main.go:47-69): the fields `Collect` reads (named `AppGroup`
here to avoid clashing with the algebraic `Group`). -/
structure AppGroup where
  requestQueueSize : Int
  processesSpawning : Int
  processes : List Process
deriving DecidableEq

/-- `SuperGroup` (src/main.go:38-44): the fields `Collect` reads. -/
structure SuperGroup where
  name : String
  group : AppGroup
deriving DecidableEq

/-- `Info` (src/main.go:27-35): the fields `Collect` reads. -/
structure Info where
  passengerVersion : String
  appGroupCount : Int
  currentProcessCount : Int
  maxProcessCount : Int
  topLevelRequestQueueSize : Int
  superGroups : List SuperGroup
deriving DecidableEq

/-- `microsecondsPerSecond` (src/main.go:132). -/
def microsecondsPerSecond : Int := 1000000

/-- The per-process loop of `Collect` (src/main.go:282-290): each process
whose pid has an entry in the map yields the memory gauge, the
requests-processed counter and the start-time gauge (microseconds divided
by `microsecondsPerSecond` with Go's truncating integer division), labeled
by the supergroup name and the slot number rendered in decimal
(`strconv.Itoa`); a process whose pid has no entry yields nothing. -/
def procMetrics (ids : IdentityMap) (groupName : String)
    (procs : List Process) : List Measurement :=
  procs.bind (fun proc =>
    match mapLookup ids proc.pid with
    | some bucketID =>
      [⟨"passenger_proc_memory", MetricKind.gauge, proc.realMemory,
         [groupName, toString bucketID]⟩,
       ⟨"passenger_requests_processed_total", MetricKind.counter,
         proc.requestsProcessed, [groupName, toString bucketID]⟩,
       ⟨"passenger_proc_start_time_seconds", MetricKind.gauge,
         Int.div proc.spawnStartTime microsecondsPerSecond,
         [groupName, toString bucketID]⟩]
    | none => [])

/-- The supergroup loop of `Collect` (src/main.go:276-291): for each
supergroup, emit the request-queue and spawning gauges, replace the
process-wide map by `updateProcesses` applied to THIS group's process list,
then emit the per-process metrics with the replaced map.  `none` models a
panic inside `updateProcesses`. -/
def collectGroups (maxProcessCount : Nat) :
    List SuperGroup → IdentityMap → Option (List Measurement × IdentityMap)
  | [], ids => some ([], ids)
  | sg :: rest, ids =>
    match updateProcesses ids sg.group.processes maxProcessCount with
    | none => none
    | some ids₂ =>
      match collectGroups maxProcessCount rest ids₂ with
      | none => none
      | some (ms, idsFinal) =>
        some ([⟨"passenger_app_request_queue", MetricKind.gauge,
                 sg.group.requestQueueSize, [sg.name]⟩,
               ⟨"passenger_app_procs_spawning", MetricKind.gauge,
                 sg.group.processesSpawning, [sg.name]⟩] ++
              procMetrics ids₂ sg.name sg.group.processes ++ ms, idsFinal)

/-- `Exporter.Collect` (src/main.go:261-292).  `fetched = none` models a
failed status fetch or parse (`e.status()` returned an error); on success
the poll emits the availability, version and pool gauges and then processes
each supergroup in order.  Returns the emitted measurements in emission
order together with the new value of the process-wide `processIdentifiers`
map.  `none` models a Go runtime panic: a negative `MaxProcessCount`
(which Go's `make` would reject at the first `updateProcesses` call) or an
out-of-range stored slot. -/
def collect (fetched : Option Info) (processIdentifiers : IdentityMap) :
    Option (List Measurement × IdentityMap) :=
  match fetched with
  | none =>
    some ([⟨"passenger_up", MetricKind.gauge, 0, []⟩], processIdentifiers)
  | some info =>
    if info.maxProcessCount < 0 then none
    else
      match collectGroups info.maxProcessCount.toNat info.superGroups
          processIdentifiers with
      | none => none
      | some (ms, ids) =>
        some ([⟨"passenger_up", MetricKind.gauge, 1, []⟩,
               ⟨"passenger_version", MetricKind.gauge, 1, [info.passengerVersion]⟩,
               ⟨"passenger_top_level_request_queue", MetricKind.gauge,
                 info.topLevelRequestQueueSize, []⟩,
               ⟨"passenger_max_processes", MetricKind.gauge, info.maxProcessCount, []⟩,
               ⟨"passenger_current_processes", MetricKind.gauge,
                 info.currentProcessCount, []⟩,
               ⟨"passenger_app_group_count", MetricKind.gauge,
                 info.appGroupCount, []⟩] ++ ms, ids)

/-- The pids present anywhere in a snapshot's process list, flattened
across all supergroups (the list the spec says one single update call
should receive). -/
def snapshotPids (info : Info) : List String :=
  info.superGroups.bind (fun sg => sg.group.processes.map (fun p => p.pid))

-- ### Reference-passing embedding of updateProcesses (for the frame claim)

/-- A heap of Go maps.  Go maps are reference types: `updateProcesses`
receives `old` by reference and allocates `updated` with `make`.
Addresses are list indices; reading a dangling address yields the empty
map (never exercised under the validity hypothesis). -/
abbrev Store := List IdentityMap

/-- Read the map at an address. -/
def storeRead (σ : Store) (ref : Nat) : IdentityMap :=
  σ.getD ref []

/-- Overwrite the map at an address. -/
def storeWrite (σ : Store) (ref : Nat) (m : IdentityMap) : Store :=
  σ.set ref m

/-- Reference-passing version of the scan loop of `updateProcesses`
(src/main.go:378-388): every store write is a map assignment
`updated[pid] = i` at the address `newRef` of the freshly allocated map. -/
def scanSlotsRef (newRef : Nat) (missing : List String) :
    List String → Nat → Nat → Store → Store × Nat
  | [], _, j, σ => (σ, j)
  | pid :: rest, i, j, σ =>
    if pid = "" then
      if missing.length ≤ j then
        scanSlotsRef newRef missing rest (i + 1) j σ
      else
        scanSlotsRef newRef missing rest (i + 1) (j + 1)
          (storeWrite σ newRef
            (mapInsert (storeRead σ newRef) (missing.getD j "") (i : Int)))
    else
      scanSlotsRef newRef missing rest (i + 1) j
        (storeWrite σ newRef (mapInsert (storeRead σ newRef) pid (i : Int)))

/-- Reference-passing version of the overflow loop (src/main.go:394-399). -/
def assignOverflowRef (newRef : Nat) (count : Nat) :
    List String → Nat → Store → Store
  | [], _, σ => σ
  | pid :: rest, i, σ =>
    assignOverflowRef newRef count rest (i + 1)
      (storeWrite σ newRef
        (mapInsert (storeRead σ newRef) pid ((count + i : Nat) : Int)))

/-- Reference-passing version of `updateProcesses` (src/main.go:349-402):
`make(map[string]int, maxProcesses)` allocates a fresh address `newRef`
for `updated`; the map at `oldRef` is only ever read (`old[p.PID]`), never
written.  Returns the new store and the address of the returned map. -/
def updateProcessesRef (σ : Store) (oldRef : Nat) (processes : List Process)
    (maxProcesses : Nat) : Option (Store × Nat) :=
  match buildFound (storeRead σ oldRef) (processes.take maxProcesses)
      (List.replicate maxProcesses "") [] with
  | none => none
  | some (found, missing) =>
    match scanSlotsRef σ.length missing found 0 0 (σ ++ [[]]) with
    | (σ₂, j) =>
      if j < missing.length then
        some (assignOverflowRef σ.length found.length (missing.drop j) 0 σ₂,
          σ.length)
      else
        some (σ₂, σ.length)

theorem storeRead_storeWrite_self (σ : Store) (ref : Nat) (m : IdentityMap)
    (h : ref < σ.length) : storeRead (storeWrite σ ref m) ref = m := by
  unfold storeRead storeWrite
  rw [List.getD_eq_getElem?_getD, List.getElem?_set_eq_of_lt m h]
  rfl

theorem storeRead_storeWrite_ne (σ : Store) (ref r : Nat) (m : IdentityMap)
    (h : ref ≠ r) : storeRead (storeWrite σ ref m) r = storeRead σ r := by
  unfold storeRead storeWrite
  rw [List.getD_eq_getElem?_getD, List.getElem?_set_ne h, ← List.getD_eq_getElem?_getD]

theorem length_storeWrite (σ : Store) (ref : Nat) (m : IdentityMap) :
    (storeWrite σ ref m).length = σ.length := by
  unfold storeWrite
  exact List.length_set σ ref m

theorem scanSlotsRef_spec (newRef : Nat) (missing : List String) :
    ∀ found i j σ, newRef < σ.length →
      (scanSlotsRef newRef missing found i j σ).1.length = σ.length ∧
      (scanSlotsRef newRef missing found i j σ).2 =
        (scanSlots missing found i j (storeRead σ newRef)).2 ∧
      storeRead (scanSlotsRef newRef missing found i j σ).1 newRef =
        (scanSlots missing found i j (storeRead σ newRef)).1 ∧
      (∀ r, r ≠ newRef →
        storeRead (scanSlotsRef newRef missing found i j σ).1 r = storeRead σ r) := by
  intro found
  induction found with
  | nil =>
    intro i j σ hlt
    rw [scanSlotsRef, scanSlots]
    exact ⟨rfl, rfl, rfl, fun r _ => rfl⟩
  | cons c rest ih =>
    intro i j σ hlt
    rw [scanSlotsRef, scanSlots]
    by_cases hc : c = ""
    · rw [if_pos hc, if_pos hc]
      by_cases hj : missing.length ≤ j
      · rw [if_pos hj, if_pos hj]
        exact ih i.succ j σ hlt
      · rw [if_neg hj, if_neg hj]
        have hlt₂ : newRef <
            (storeWrite σ newRef
              (mapInsert (storeRead σ newRef) (missing.getD j "") (i : Int))).length := by
          rw [length_storeWrite]
          exact hlt
        obtain ⟨hl, hj₂, hnew, hother⟩ := ih (i + 1) (j + 1) _ hlt₂
        rw [storeRead_storeWrite_self σ newRef _ hlt] at hj₂ hnew
        refine ⟨by rw [hl, length_storeWrite], hj₂, hnew, ?_⟩
        intro r hr
        rw [hother r hr, storeRead_storeWrite_ne σ newRef r _ (fun hx => hr hx.symm)]
    · rw [if_neg hc, if_neg hc]
      have hlt₂ : newRef <
          (storeWrite σ newRef (mapInsert (storeRead σ newRef) c (i : Int))).length := by
        rw [length_storeWrite]
        exact hlt
      obtain ⟨hl, hj₂, hnew, hother⟩ := ih (i + 1) j _ hlt₂
      rw [storeRead_storeWrite_self σ newRef _ hlt] at hj₂ hnew
      refine ⟨by rw [hl, length_storeWrite], hj₂, hnew, ?_⟩
      intro r hr
      rw [hother r hr, storeRead_storeWrite_ne σ newRef r _ (fun hx => hr hx.symm)]

theorem assignOverflowRef_spec (newRef : Nat) (count : Nat) :
    ∀ pids i σ, newRef < σ.length →
      (assignOverflowRef newRef count pids i σ).length = σ.length ∧
      storeRead (assignOverflowRef newRef count pids i σ) newRef =
        assignOverflow count pids i (storeRead σ newRef) ∧
      (∀ r, r ≠ newRef →
        storeRead (assignOverflowRef newRef count pids i σ) r = storeRead σ r) := by
  intro pids
  induction pids with
  | nil =>
    intro i σ hlt
    rw [assignOverflowRef, assignOverflow]
    exact ⟨rfl, rfl, fun r _ => rfl⟩
  | cons pid rest ih =>
    intro i σ hlt
    rw [assignOverflowRef, assignOverflow]
    have hlt₂ : newRef <
        (storeWrite σ newRef
          (mapInsert (storeRead σ newRef) pid ((count + i : Nat) : Int))).length := by
      rw [length_storeWrite]
      exact hlt
    obtain ⟨hl, hnew, hother⟩ := ih (i + 1) _ hlt₂
    rw [storeRead_storeWrite_self σ newRef _ hlt] at hnew
    refine ⟨by rw [hl, length_storeWrite], hnew, ?_⟩
    intro r hr
    rw [hother r hr, storeRead_storeWrite_ne σ newRef r _ (fun hx => hr hx.symm)]

theorem storeRead_append_left (σ : Store) (m : IdentityMap) (r : Nat)
    (h : r < σ.length) : storeRead (σ ++ [m]) r = storeRead σ r := by
  unfold storeRead
  rw [List.getD_eq_getElem?_getD, List.getElem?_append, if_pos h,
    ← List.getD_eq_getElem?_getD]

theorem storeRead_append_self (σ : Store) (m : IdentityMap) :
    storeRead (σ ++ [m]) σ.length = m := by
  unfold storeRead
  rw [List.getD_eq_getElem?_getD, List.getElem?_append_right (le_refl σ.length)]
  simp

theorem updateProcessesRef_spec (σ : Store) (oldRef : Nat) (ps : List Process)
    (c : Nat) (σ' : Store) (newRef : Nat)
    (hold : oldRef < σ.length)
    (h : updateProcessesRef σ oldRef ps c = some (σ', newRef)) :
    newRef = σ.length ∧
    σ'.length = σ.length + 1 ∧
    (∀ r, r < σ.length → storeRead σ' r = storeRead σ r) ∧
    updateProcesses (storeRead σ oldRef) ps c = some (storeRead σ' newRef) := by
  rw [updateProcessesRef] at h
  cases hbf : buildFound (storeRead σ oldRef) (ps.take c) (List.replicate c "") [] with
  | none =>
    rw [hbf] at h
    cases h
  | some pr =>
    obtain ⟨found, missing⟩ := pr
    rw [hbf] at h
    dsimp only at h
    have hlt : σ.length < (σ ++ [[]] : Store).length := by
      rw [List.length_append]
      simp
    obtain ⟨hl, hj, hnew, hother⟩ :=
      scanSlotsRef_spec σ.length missing found 0 0 (σ ++ [[]]) hlt
    rw [storeRead_append_self σ []] at hj hnew
    rcases hsc : scanSlotsRef σ.length missing found 0 0 (σ ++ [[]]) with ⟨σ₂, j⟩
    rw [hsc] at h hl hj hnew hother
    dsimp only at h hl hj hnew hother
    rw [List.length_append, List.length_singleton] at hl
    rw [updateProcesses, hbf]
    dsimp only
    rcases hpure : scanSlots missing found 0 0 [] with ⟨u, j₀⟩
    rw [hpure] at hj hnew
    dsimp only at hj hnew
    by_cases hjlt : j < missing.length
    · rw [if_pos hjlt] at h
      injection h with h
      injection h with hσ hr
      subst hr
      subst hσ
      obtain ⟨hol, honew, hoother⟩ :=
        assignOverflowRef_spec σ.length found.length (missing.drop j) 0 σ₂ (by omega)
      refine ⟨rfl, by rw [hol, hl], ?_, ?_⟩
      · intro r hr₂
        rw [hoother r (by omega), hother r (by omega),
          storeRead_append_left σ [] r hr₂]
      · rw [← hj, if_pos hjlt, honew, hnew]
    · rw [if_neg hjlt] at h
      injection h with h
      injection h with hσ hr
      subst hr
      subst hσ
      refine ⟨rfl, hl, ?_, ?_⟩
      · intro r hr₂
        rw [hother r (by omega), storeRead_append_left σ [] r hr₂]
      · rw [← hj, if_neg hjlt, hnew]

-- ### Remaining helpers for the claim theorems

theorem lookup_mem (m : IdentityMap) (k : String) (v : Int)
    (h : mapLookup m k = some v) : (k, v) ∈ m := by
  induction m with
  | nil => cases h
  | cons kv rest ih =>
    obtain ⟨k₀, v₀⟩ := kv
    rw [mapLookup] at h
    by_cases hk : k₀ = k
    · rw [if_pos hk] at h
      injection h with h
      subst hk
      subst h
      exact List.mem_cons_self _ _
    · rw [if_neg hk] at h
      exact List.mem_cons_of_mem _ (ih h)

theorem entry_inj_on_pids (M : IdentityMap) (ps : List Process)
    (h : ∀ kv₁ ∈ M, kv₁.1 ∈ ps.map (fun p => p.pid) →
      ∀ kv₂ ∈ M, kv₂.1 ∈ ps.map (fun p => p.pid) →
      kv₁.2 = kv₂.2 → kv₁.1 = kv₂.1) :
    ∀ p ∈ ps, ∀ q ∈ ps, ∀ s, mapLookup M p.pid = some s →
      mapLookup M q.pid = some s → p.pid = q.pid := by
  intro p hp q hq s hps hqs
  exact h (p.pid, s) (lookup_mem M p.pid s hps)
    (List.mem_map.2 ⟨p, hp, rfl⟩) (q.pid, s) (lookup_mem M q.pid s hqs)
    (List.mem_map.2 ⟨q, hq, rfl⟩) rfl

theorem lookup_inj_to_pid_eq (M : IdentityMap)
    (h : ∀ k₁ k₂ v, k₁ ≠ k₂ → mapLookup M k₁ = some v →
      mapLookup M k₂ = some v → False) :
    ∀ (ps : List Process), ∀ p ∈ ps, ∀ q ∈ ps, ∀ s,
      mapLookup M p.pid = some s → mapLookup M q.pid = some s → p.pid = q.pid := by
  intro ps p _ q _ s hps hqs
  by_contra hne
  exact h p.pid q.pid s hne hps hqs

theorem updateProcesses_some (old : IdentityMap) (P : List Process) (c : Nat)
    (hin : ∀ p ∈ P.take c, ∀ s, mapLookup old p.pid = some s →
      0 ≤ s ∧ s < (c : Int)) :
    ∃ m, updateProcesses old P c = some m := by
  obtain ⟨f, hbf, hflen⟩ := buildFound_ok old (P.take c) (List.replicate c "") []
    (by
      intro p hp s hs
      have := hin p hp s hs
      rw [List.length_replicate]
      exact this)
  rw [List.nil_append] at hbf
  have hle := miss_le_emptyCount old P c f _ hbf
  have hj := scanSlots_j (missedOf old (P.take c)) f 0 0 [] (by omega)
  rw [updateProcesses, hbf]
  dsimp only
  rcases hsc : scanSlots (missedOf old (P.take c)) f 0 0 [] with ⟨u, j⟩
  rw [hsc] at hj
  dsimp only at hj ⊢
  rw [if_neg (by omega)]
  exact ⟨u, rfl⟩

/-- The sequence of map replacements performed by `Collect`'s supergroup
loop (src/main.go:281), with metric emission stripped: one
`updateProcesses` call per supergroup, each call's output feeding the
next call as its `previous` map. -/
def foldUpdates (cap : Nat) : List SuperGroup → IdentityMap → Option IdentityMap
  | [], ids => some ids
  | sg :: rest, ids =>
    match updateProcesses ids sg.group.processes cap with
    | none => none
    | some ids₂ => foldUpdates cap rest ids₂

theorem collectGroups_foldUpdates (cap : Nat) :
    ∀ gs ids ms idsF, collectGroups cap gs ids = some (ms, idsF) →
      foldUpdates cap gs ids = some idsF := by
  intro gs
  induction gs with
  | nil =>
    intro ids ms idsF h
    rw [collectGroups] at h
    injection h with h
    injection h with h₁ h₂
    subst h₂
    rfl
  | cons sg rest ih =>
    intro ids ms idsF h
    rw [collectGroups] at h
    rw [foldUpdates]
    cases hup : updateProcesses ids sg.group.processes cap with
    | none =>
      rw [hup] at h
      cases h
    | some ids₂ =>
      rw [hup] at h
      dsimp only at h ⊢
      cases hrec : collectGroups cap rest ids₂ with
      | none =>
        rw [hrec] at h
        cases h
      | some pr =>
        obtain ⟨ms₂, idsF₂⟩ := pr
        rw [hrec] at h
        dsimp only at h
        injection h with h
        injection h with h₁ h₂
        subst h₂
        exact ih ids₂ ms₂ idsF₂ hrec

theorem foldUpdates_last (cap : Nat) :
    ∀ gs (glast : SuperGroup) ids idsF,
      foldUpdates cap (gs ++ [glast]) ids = some idsF →
      ∃ prev, foldUpdates cap gs ids = some prev ∧
        updateProcesses prev glast.group.processes cap = some idsF := by
  intro gs
  induction gs with
  | nil =>
    intro glast ids idsF h
    rw [List.nil_append, foldUpdates] at h
    cases hup : updateProcesses ids glast.group.processes cap with
    | none =>
      rw [hup] at h
      cases h
    | some ids₂ =>
      rw [hup] at h
      dsimp only at h
      rw [foldUpdates] at h
      injection h with h
      subst h
      exact ⟨ids, rfl, hup⟩
  | cons sg rest ih =>
    intro glast ids idsF h
    rw [List.cons_append, foldUpdates] at h
    cases hup : updateProcesses ids sg.group.processes cap with
    | none =>
      rw [hup] at h
      cases h
    | some ids₂ =>
      rw [hup] at h
      dsimp only at h
      obtain ⟨prev, hchain, hlast⟩ := ih glast ids₂ idsF h
      refine ⟨prev, ?_, hlast⟩
      rw [foldUpdates, hup]
      exact hchain

theorem foldUpdates_preserves_inj (cap : Nat) :
    ∀ gs ids idsF, foldUpdates cap gs ids = some idsF →
      (∀ k₁ k₂ v, k₁ ≠ k₂ → mapLookup ids k₁ = some v →
        mapLookup ids k₂ = some v → False) →
      (∀ k₁ k₂ v, k₁ ≠ k₂ → mapLookup idsF k₁ = some v →
        mapLookup idsF k₂ = some v → False) := by
  intro gs
  induction gs with
  | nil =>
    intro ids idsF h hinj
    rw [foldUpdates] at h
    injection h with h
    subst h
    exact hinj
  | cons sg rest ih =>
    intro ids idsF h _
    rw [foldUpdates] at h
    cases hup : updateProcesses ids sg.group.processes cap with
    | none =>
      rw [hup] at h
      cases h
    | some ids₂ =>
      rw [hup] at h
      dsimp only at h
      exact ih ids₂ idsF h (updateProcesses_inj ids sg.group.processes cap ids₂ hup)

theorem collect_some_inv (info : Info) (M : IdentityMap) (ms : List Measurement)
    (m' : IdentityMap) (h : collect (some info) M = some (ms, m')) :
    0 ≤ info.maxProcessCount ∧
    ∃ ms₀, collectGroups info.maxProcessCount.toNat info.superGroups M =
      some (ms₀, m') := by
  rw [collect] at h
  by_cases hneg : info.maxProcessCount < 0
  · rw [if_pos hneg] at h
    cases h
  · rw [if_neg hneg] at h
    cases hcg : collectGroups info.maxProcessCount.toNat info.superGroups M with
    | none =>
      rw [hcg] at h
      cases h
    | some pr =>
      obtain ⟨ms₀, ids⟩ := pr
      rw [hcg] at h
      dsimp only at h
      injection h with h
      injection h with h₁ h₂
      subst h₂
      exact ⟨by omega, ms₀, rfl⟩

-- ### Claim C1: continuity of slots

/-- C1 (corrected).  Continuity of slots: a pid present in the previous map
and among the first min(|P|, c) processes keeps its previous slot, PROVIDED
that the pid is non-empty (the empty string is the code's free-slot
marker), no other pid among those processes shares its slot in `M`, and the
call returns a map.  Without those extra conditions the claim is false, see
`C1_counterexample`. -/
theorem C1_continuity (M : IdentityMap) (P : List Process) (c : Nat)
    (m : IdentityMap) (p : Process) (s : Int)
    (hm : updateProcesses M P c = some m)
    (hp : p ∈ P.take c)
    (hs : mapLookup M p.pid = some s)
    (hne : p.pid ≠ "")
    (huniq : ∀ q ∈ P.take c, mapLookup M q.pid = some s → q.pid = p.pid) :
    mapLookup m p.pid = some s :=
  updateProcesses_lookup_retained M P c m p s hm hp hs hne huniq

/-- Witness for C1: pid "abc" (slot 0 in the previous map, present in the
process list) keeps slot 0. -/
theorem C1_witness :
    updateProcesses [("abc", 0), ("cdf", 1)]
        [onlyPid "abc", onlyPid "cdf", onlyPid "new"] 3 =
      some [("abc", 0), ("cdf", 1), ("new", 2)] ∧
    mapLookup [("abc", 0), ("cdf", 1), ("new", 2)] "abc" = some 0 :=
  ⟨by decide,
    C1_continuity [("abc", 0), ("cdf", 1)]
      [onlyPid "abc", onlyPid "cdf", onlyPid "new"] 3
      [("abc", 0), ("cdf", 1), ("new", 2)] (onlyPid "abc") 0
      (by decide) (by decide) (by decide) (by decide) (by decide)⟩

/-- Counterexample to C1 as stated: with previous map {a:0, b:0}, pid "a"
is in the map and among the first min(|P|, c) processes, yet the returned
map does not map "a" at all (the later writer "b" overwrote slot 0). -/
theorem C1_counterexample :
    mapLookup [("a", 0), ("b", 0)] "a" = some 0 ∧
    "a" ∈ ([onlyPid "a", onlyPid "b"].take 2).map (fun p => p.pid) ∧
    updateProcesses [("a", 0), ("b", 0)] [onlyPid "a", onlyPid "b"] 2 =
      some [("b", 0)] ∧
    mapLookup [("b", 0)] "a" = none := by decide

-- ### Claim C2: idempotence

/-- C2 (corrected).  Idempotence of the identity mapper holds with distinct
NON-EMPTY pids, |P| ≤ c, and a previous map that does not send two of P's
pids to the same slot; re-running `updateProcesses` on its own output with
the same process list yields a map equal (as a Go map) to that output.
Without the extra conditions the claim is false, see
`C2_counterexample`. -/
theorem C2_idempotent (M : IdentityMap) (P : List Process) (c : Nat)
    (m₁ : IdentityMap)
    (hnodup : (P.map (fun p => p.pid)).Nodup)
    (hlen : P.length ≤ c)
    (hnonempty : ∀ p ∈ P, p.pid ≠ "")
    (hMinj : ∀ kv₁ ∈ M, kv₁.1 ∈ P.map (fun p => p.pid) →
      ∀ kv₂ ∈ M, kv₂.1 ∈ P.map (fun p => p.pid) →
      kv₁.2 = kv₂.2 → kv₁.1 = kv₂.1)
    (hm₁ : updateProcesses M P c = some m₁) :
    ∃ m₂, updateProcesses m₁ P c = some m₂ ∧ mapEquiv m₂ m₁ := by
  have htake : P.take c = P := List.take_of_length_le hlen
  have hnodup₂ : ((P.take c).map (fun p => p.pid)).Nodup := by
    rw [htake]
    exact hnodup
  have hnonempty₂ : ∀ p ∈ P.take c, p.pid ≠ "" := by
    rw [htake]
    exact hnonempty
  have hMinj₂ : ∀ p ∈ P.take c, ∀ q ∈ P.take c, ∀ s, mapLookup M p.pid = some s →
      mapLookup M q.pid = some s → p.pid = q.pid := by
    rw [htake]
    exact entry_inj_on_pids M P hMinj
  have hkeys₁ := updateProcesses_keys M P c m₁ hm₁ hnodup₂ hnonempty₂ hMinj₂
  have hbounds₁ := updateProcesses_slot_bounds M P c m₁ hm₁
  have hinj₁ := updateProcesses_inj M P c m₁ hm₁
  obtain ⟨m₂, hm₂⟩ := updateProcesses_some m₁ P c
    (fun p _ s hs => hbounds₁ p.pid s hs)
  have hinjform₁ := lookup_inj_to_pid_eq m₁ hinj₁ (P.take c)
  have hkeys₂ := updateProcesses_keys m₁ P c m₂ hm₂ hnodup₂ hnonempty₂ hinjform₁
  refine ⟨m₂, hm₂, ?_⟩
  intro k
  by_cases hk : k ∈ (P.take c).map (fun p => p.pid)
  · obtain ⟨p, hp, hppid⟩ := List.mem_map.1 hk
    obtain ⟨s, hs⟩ := Option.isSome_iff_exists.1 ((hkeys₁ k).2 hk)
    have hsk : mapLookup m₁ p.pid = some s := by
      rw [hppid]
      exact hs
    have huniq : ∀ q ∈ P.take c, mapLookup m₁ q.pid = some s → q.pid = p.pid :=
      fun q hq hqs => hinjform₁ q hq p hp s hqs hsk
    have h₂ := updateProcesses_lookup_retained m₁ P c m₂ p s hm₂ hp hsk
      (hnonempty₂ p hp) huniq
    rw [hppid] at h₂
    rw [h₂, hs]
  · have h₁ : mapLookup m₁ k = none :=
      Option.not_isSome_iff_eq_none.1 (fun hsome => hk ((hkeys₁ k).1 hsome))
    have h₂ : mapLookup m₂ k = none :=
      Option.not_isSome_iff_eq_none.1 (fun hsome => hk ((hkeys₂ k).1 hsome))
    rw [h₁, h₂]

/-- Witness for C2: re-running on the output {y:0, x:1} reproduces it. -/
theorem C2_witness :
    updateProcesses [("x", 1)] [onlyPid "x", onlyPid "y"] 3 =
      some [("y", 0), ("x", 1)] ∧
    updateProcesses [("y", 0), ("x", 1)] [onlyPid "x", onlyPid "y"] 3 =
      some [("y", 0), ("x", 1)] ∧
    mapEquiv [("y", 0), ("x", 1)] [("y", 0), ("x", 1)] := by
  obtain ⟨m₂, hm₂, heq⟩ := C2_idempotent [("x", 1)] [onlyPid "x", onlyPid "y"] 3
    [("y", 0), ("x", 1)] (by decide) (by decide) (by decide) (by decide) (by decide)
  have hconc : updateProcesses [("y", 0), ("x", 1)] [onlyPid "x", onlyPid "y"] 3 =
      some [("y", 0), ("x", 1)] := by decide
  rw [hconc] at hm₂
  injection hm₂ with hm₂
  subst hm₂
  exact ⟨by decide, hconc, heq⟩

/-- Counterexample to C2 as stated: with the non-injective previous map
{a:0, b:0} and the distinct-pid list [a, b] with |P| ≤ capacity, the first
update yields {b:0} and the second update of that output yields
{b:0, a:1}, which differs at key "a". -/
theorem C2_counterexample :
    ([onlyPid "a", onlyPid "b"].map (fun p => p.pid)).Nodup ∧
    [onlyPid "a", onlyPid "b"].length ≤ 2 ∧
    updateProcesses [("a", 0), ("b", 0)] [onlyPid "a", onlyPid "b"] 2 =
      some [("b", 0)] ∧
    updateProcesses [("b", 0)] [onlyPid "a", onlyPid "b"] 2 =
      some [("b", 0), ("a", 1)] ∧
    mapLookup [("b", 0), ("a", 1)] "a" ≠ mapLookup [("b", 0)] "a" := by decide

-- ### Claim C3: slot cardinality

/-- C3 (corrected).  Slot cardinality: the returned map has exactly
min(|P|, c) entries and its key set is exactly the pids of the first
min(|P|, c) processes, PROVIDED the pids are non-empty, the previous map
does not send two of those pids to one slot, and the call returns a map.
Without the extra conditions the claim is false, see
`C3_counterexample`. -/
theorem C3_cardinality (M : IdentityMap) (P : List Process) (c : Nat)
    (m : IdentityMap)
    (hnodup : ((P.take c).map (fun p => p.pid)).Nodup)
    (hnonempty : ∀ p ∈ P.take c, p.pid ≠ "")
    (hMinj : ∀ kv₁ ∈ M, kv₁.1 ∈ (P.take c).map (fun p => p.pid) →
      ∀ kv₂ ∈ M, kv₂.1 ∈ (P.take c).map (fun p => p.pid) →
      kv₁.2 = kv₂.2 → kv₁.1 = kv₂.1)
    (hm : updateProcesses M P c = some m) :
    m.length = min P.length c ∧
    ∀ k, (mapLookup m k).isSome ↔ k ∈ (P.take c).map (fun p => p.pid) := by
  have hMinj₂ := entry_inj_on_pids M (P.take c) hMinj
  refine ⟨?_, updateProcesses_keys M P c m hm hnodup hnonempty hMinj₂⟩
  rw [updateProcesses_length M P c m hm hnodup hnonempty hMinj₂, List.length_take,
    Nat.min_comm]

/-- Witness for C3: two processes, capacity 1: one entry, keyed by the
first pid. -/
theorem C3_witness :
    updateProcesses [] [onlyPid "a", onlyPid "b"] 1 = some [("a", 0)] ∧
    ([("a", 0)] : IdentityMap).length = min 2 1 ∧
    (mapLookup [("a", 0)] "a").isSome := by
  have h := C3_cardinality [] [onlyPid "a", onlyPid "b"] 1 [("a", 0)]
    (by decide) (by decide) (by decide) (by decide)
  exact ⟨by decide, h.1, (h.2 "a").2 (by decide)⟩

/-- Counterexample to C3 as stated: previous map {a:0, b:0}, distinct-pid
list [a, b], capacity 2: the output has one entry, not min(2, 2) = 2. -/
theorem C3_counterexample :
    ([onlyPid "a", onlyPid "b"].map (fun p => p.pid)).Nodup ∧
    updateProcesses [("a", 0), ("b", 0)] [onlyPid "a", onlyPid "b"] 2 =
      some [("b", 0)] ∧
    ([("b", 0)] : IdentityMap).length ≠ min [onlyPid "a", onlyPid "b"].length 2 := by
  decide

-- ### Claim C4: new-pid slot assignment

/-- C4 (corrected).  New-pid slot assignment: with all previous slots in
[0, c), distinct pids and |P| ≤ c, each pid absent from `M` receives, in
order of appearance, the next slot of `specFreeSlots` (the increasing list
of slots in [0, c) not held by any retained pid) — PROVIDED all pids are
non-empty.  With an empty-string pid the claim as stated is false, see
`C4_counterexample`.  Scenario B of the spec instantiates this theorem,
see `C4_witness`. -/
theorem C4_new_pid_slots (M : IdentityMap) (P : List Process) (c : Nat)
    (hrange : ∀ kv ∈ M, 0 ≤ kv.2 ∧ kv.2 < (c : Int))
    (hnodup : (P.map (fun p => p.pid)).Nodup)
    (hlen : P.length ≤ c)
    (hnonempty : ∀ p ∈ P, p.pid ≠ "") :
    ∃ m, updateProcesses M P c = some m ∧
      ∀ r, r < (missedOf M P).length →
        mapLookup m ((missedOf M P).getD r "") =
          some (((specFreeSlots M P c).getD r 0 : Nat) : Int) := by
  have htake : P.take c = P := List.take_of_length_le hlen
  have hin : ∀ p ∈ P.take c, ∀ s, mapLookup M p.pid = some s →
      0 ≤ s ∧ s < (c : Int) :=
    fun p _ s hs => hrange (p.pid, s) (lookup_mem M p.pid s hs)
  obtain ⟨m, hm⟩ := updateProcesses_some M P c hin
  obtain ⟨f, hbf, hflen, hj, hmeq⟩ := updateProcesses_inv M P c m hm
  refine ⟨m, hm, ?_⟩
  intro r hr
  have hr₂ : r < (missedOf M (P.take c)).length := by
    rw [htake]
    exact hr
  have hlook := scan_lookup_new M P c m f r hbf hflen hmeq
    (by rw [htake]; exact hnodup) hr₂
  have hcnt : r < emptyCount f := by
    have := miss_le_emptyCount M P c f _ hbf
    omega
  have hbridge := nthEmpty_eq_specFreeSlots M P c f hbf hflen
    (by rw [htake]; exact hnonempty) r hcnt
  rw [htake] at hlook hbridge
  rw [hlook, hbridge]

/-- Witness for C4: the spec's Scenario B.  New pids newPID and newPID2
receive the free slots 1 and 3. -/
theorem C4_witness :
    updateProcesses [("abc", 0), ("cdf", 1), ("dfe", 2), ("efg", 3)]
        [onlyPid "abc", onlyPid "dfe", onlyPid "newPID", onlyPid "newPID2"] 6 =
      some [("abc", 0), ("newPID", 1), ("dfe", 2), ("newPID2", 3)] ∧
    mapLookup [("abc", 0), ("newPID", 1), ("dfe", 2), ("newPID2", 3)] "newPID" =
      some 1 ∧
    mapLookup [("abc", 0), ("newPID", 1), ("dfe", 2), ("newPID2", 3)] "newPID2" =
      some 3 := by
  obtain ⟨m, hm, hr⟩ := C4_new_pid_slots
    [("abc", 0), ("cdf", 1), ("dfe", 2), ("efg", 3)]
    [onlyPid "abc", onlyPid "dfe", onlyPid "newPID", onlyPid "newPID2"] 6
    (by decide) (by decide) (by decide) (by decide)
  have hmc : updateProcesses [("abc", 0), ("cdf", 1), ("dfe", 2), ("efg", 3)]
      [onlyPid "abc", onlyPid "dfe", onlyPid "newPID", onlyPid "newPID2"] 6 =
      some [("abc", 0), ("newPID", 1), ("dfe", 2), ("newPID2", 3)] := by decide
  rw [hmc] at hm
  injection hm with hm
  subst hm
  have h₀ := hr 0 (by decide)
  have h₁ := hr 1 (by decide)
  have e₀ : (missedOf [("abc", 0), ("cdf", 1), ("dfe", 2), ("efg", 3)]
      [onlyPid "abc", onlyPid "dfe", onlyPid "newPID", onlyPid "newPID2"]).getD 0 "" =
      "newPID" := by decide
  have e₁ : (missedOf [("abc", 0), ("cdf", 1), ("dfe", 2), ("efg", 3)]
      [onlyPid "abc", onlyPid "dfe", onlyPid "newPID", onlyPid "newPID2"]).getD 1 "" =
      "newPID2" := by decide
  have s₀ : (specFreeSlots [("abc", 0), ("cdf", 1), ("dfe", 2), ("efg", 3)]
      [onlyPid "abc", onlyPid "dfe", onlyPid "newPID", onlyPid "newPID2"] 6).getD 0 0 =
      1 := by decide
  have s₁ : (specFreeSlots [("abc", 0), ("cdf", 1), ("dfe", 2), ("efg", 3)]
      [onlyPid "abc", onlyPid "dfe", onlyPid "newPID", onlyPid "newPID2"] 6).getD 1 0 =
      3 := by decide
  rw [e₀, s₀] at h₀
  rw [e₁, s₁] at h₁
  exact ⟨hmc, h₀, h₁⟩

/-- Counterexample to C4 as stated: previous map {"":0} has all slots in
[0, 2), the list ["", x] has distinct pids with |P| ≤ 2, and "x" is absent
from the map; the spec's rule gives "x" the lowest slot not held by the
retained pid "" — slot 1 — but the code assigns slot 0. -/
theorem C4_counterexample :
    mapLookup [("", 0)] "" = some 0 ∧
    missedOf [("", 0)] [onlyPid "", onlyPid "x"] = ["x"] ∧
    specFreeSlots [("", 0)] [onlyPid "", onlyPid "x"] 2 = [1] ∧
    updateProcesses [("", 0)] [onlyPid "", onlyPid "x"] 2 = some [("x", 0)] ∧
    mapLookup [("x", 0)] "x" = some 0 ∧
    mapLookup [("x", 0)] "x" ≠ some 1 := by decide

-- ### Claim C5: defensive totality

/-- C5 (corrected).  Defensive totality: when every slot that `M` assigns
to a pid among the first min(|P|, c) processes lies in [0, c), the call
terminates normally and the slot scan consumes ALL missing pids (the
cursor `j` ends at `len(missing)`), so the overflow branch that would
assign consecutive slots starting at c never runs.  For a previous map
with an out-of-range slot on a live pid the claim as stated is false — the
code panics — see `C5_counterexample`. -/
theorem C5_defensive (M : IdentityMap) (P : List Process) (c : Nat)
    (hin : ∀ kv ∈ M, kv.1 ∈ (P.take c).map (fun p => p.pid) →
      0 ≤ kv.2 ∧ kv.2 < (c : Int)) :
    ∃ f m, buildFound M (P.take c) (List.replicate c "") [] =
        some (f, missedOf M (P.take c)) ∧
      (scanSlots (missedOf M (P.take c)) f 0 0 []).2 =
        (missedOf M (P.take c)).length ∧
      updateProcesses M P c = some m := by
  have hin₂ : ∀ p ∈ P.take c, ∀ s, mapLookup M p.pid = some s →
      0 ≤ s ∧ s < (c : Int) := by
    intro p hp s hs
    exact hin (p.pid, s) (lookup_mem M p.pid s hs) (List.mem_map.2 ⟨p, hp, rfl⟩)
  obtain ⟨m, hm⟩ := updateProcesses_some M P c hin₂
  obtain ⟨f, hbf, hflen, hj, hmeq⟩ := updateProcesses_inv M P c m hm
  exact ⟨f, m, hbf, hj, hm⟩

/-- Witness for C5 at a concrete input with one surviving and one new
pid. -/
theorem C5_witness :
    (updateProcesses [("a", 0)] [onlyPid "a", onlyPid "b"] 2).isSome ∧
    updateProcesses [("a", 0)] [onlyPid "a", onlyPid "b"] 2 =
      some [("a", 0), ("b", 1)] := by
  obtain ⟨f, m, hbf, hj, hm⟩ := C5_defensive [("a", 0)]
    [onlyPid "a", onlyPid "b"] 2 (by decide)
  exact ⟨by rw [hm]; rfl, by decide⟩

/-- Counterexample to C5 as stated: the previous map {a:2} is inconsistent
with capacity 1; `updateProcesses` hits `found[2]` on a slice of length 1
and panics (modelled by `none`) instead of terminating normally. -/
theorem C5_counterexample :
    mapLookup [("a", 2)] "a" = some 2 ∧
    updateProcesses [("a", 2)] [onlyPid "a"] 1 = none := by decide

-- ### Claim C6: failure-path atomicity

/-- C6 (confirmed).  Failure-path atomicity: when the status fetch or
parse fails, `Collect` emits exactly one measurement — the availability
gauge `passenger_up` with value 0 and no labels — and the process-wide
pid-to-slot map is left unchanged. -/
theorem C6_failure_path (processIdentifiers : IdentityMap) :
    collect none processIdentifiers =
      some ([⟨"passenger_up", MetricKind.gauge, 0, []⟩], processIdentifiers) :=
  rfl

-- ### Claim C7: one update per poll

/-- C7 (corrected).  The Collector does NOT call the identity-mapper once
with the flattened snapshot list: it calls `updateProcesses` once per
supergroup, on that group's own process list (see `C7_counterexample` for
a two-group snapshot whose final map lacks a pid present in the
snapshot).  What holds instead: on a successful poll the final map is the
result of folding the per-group updates, and — when the last supergroup's
truncated pids are distinct and non-empty and the initial map is
injective — the final map has exactly one entry per pid among the first
min(n, capacity) processes of the LAST supergroup. -/
theorem C7_per_group_update (info : Info) (M : IdentityMap)
    (ms : List Measurement) (m' : IdentityMap) (gs : List SuperGroup)
    (glast : SuperGroup)
    (hcol : collect (some info) M = some (ms, m'))
    (hgroups : info.superGroups = gs ++ [glast])
    (hnodup : ((glast.group.processes.take info.maxProcessCount.toNat).map
      (fun p => p.pid)).Nodup)
    (hnonempty : ∀ p ∈ glast.group.processes.take info.maxProcessCount.toNat,
      p.pid ≠ "")
    (hMinj : ∀ kv₁ ∈ M, ∀ kv₂ ∈ M, kv₁.2 = kv₂.2 → kv₁.1 = kv₂.1) :
    foldUpdates info.maxProcessCount.toNat info.superGroups M = some m' ∧
    ∀ k, (mapLookup m' k).isSome ↔
      k ∈ (glast.group.processes.take info.maxProcessCount.toNat).map
        (fun p => p.pid) := by
  obtain ⟨hpos, ms₀, hcg⟩ := collect_some_inv info M ms m' hcol
  have hfold := collectGroups_foldUpdates info.maxProcessCount.toNat
    info.superGroups M ms₀ m' hcg
  refine ⟨hfold, ?_⟩
  rw [hgroups] at hfold
  obtain ⟨prev, hchain, hupd⟩ := foldUpdates_last _ gs glast M m' hfold
  have hMlook : ∀ k₁ k₂ v, k₁ ≠ k₂ → mapLookup M k₁ = some v →
      mapLookup M k₂ = some v → False := by
    intro k₁ k₂ v hne h₁ h₂
    exact hne (hMinj (k₁, v) (lookup_mem M k₁ v h₁) (k₂, v)
      (lookup_mem M k₂ v h₂) rfl)
  have hprevinj := foldUpdates_preserves_inj _ gs M prev hchain hMlook
  have hinjform := lookup_inj_to_pid_eq prev hprevinj
    (glast.group.processes.take info.maxProcessCount.toNat)
  exact updateProcesses_keys prev glast.group.processes
    info.maxProcessCount.toNat m' hupd hnodup hnonempty hinjform

/-- Witness for C7 with a single empty supergroup. -/
theorem C7_witness :
    foldUpdates 3 [⟨"g", ⟨0, 0, []⟩⟩] [] = some [] ∧
    (mapLookup ([] : IdentityMap) "zz").isSome = false := by
  have h := C7_per_group_update ⟨"v", 1, 1, 3, 0, [⟨"g", ⟨0, 0, []⟩⟩]⟩ []
    [⟨"passenger_up", MetricKind.gauge, 1, []⟩,
     ⟨"passenger_version", MetricKind.gauge, 1, ["v"]⟩,
     ⟨"passenger_top_level_request_queue", MetricKind.gauge, 0, []⟩,
     ⟨"passenger_max_processes", MetricKind.gauge, 3, []⟩,
     ⟨"passenger_current_processes", MetricKind.gauge, 1, []⟩,
     ⟨"passenger_app_group_count", MetricKind.gauge, 1, []⟩,
     ⟨"passenger_app_request_queue", MetricKind.gauge, 0, ["g"]⟩,
     ⟨"passenger_app_procs_spawning", MetricKind.gauge, 0, ["g"]⟩]
    [] [] ⟨"g", ⟨0, 0, []⟩⟩ (by decide) rfl (by decide) (by decide) (by decide)
  refine ⟨h.1, ?_⟩
  have h₂ := h.2 "zz"
  have hnot : ¬ (mapLookup ([] : IdentityMap) "zz").isSome := by
    intro hs
    exact (by decide :
      "zz" ∉ ((SuperGroup.mk "g" ⟨0, 0, []⟩).group.processes.take 3).map
        (fun p => p.pid)) (h₂.1 hs)
  exact Bool.eq_false_iff.2 hnot

/-- Counterexample to C7 as stated: a snapshot with two supergroups, one
process each.  The poll succeeds, yet the final process-wide map does not
contain pid "p", although "p" is present in the snapshot's (flattened)
process list — the second group's update call discarded it. -/
theorem C7_counterexample :
    "p" ∈ snapshotPids
      ⟨"v", 2, 2, 3, 0,
        [⟨"g1", ⟨0, 0, [onlyPid "p"]⟩⟩, ⟨"g2", ⟨0, 0, [onlyPid "q"]⟩⟩]⟩ ∧
    (collect
        (some ⟨"v", 2, 2, 3, 0,
          [⟨"g1", ⟨0, 0, [onlyPid "p"]⟩⟩, ⟨"g2", ⟨0, 0, [onlyPid "q"]⟩⟩]⟩)
        []).map (fun r => mapLookup r.2 "p") = some none := by decide

-- ### Claim C8: translation totality

/-- C8 (confirmed).  Translation totality: per-process translation is a
total function; the output is the concatenation of each process's own
contribution (so a skipped process removes nothing from the others), a
process whose pid has a slot contributes exactly three measurements —
resident memory, requests processed, and start time converted from
microseconds to seconds — labeled by group name and slot number, and a
process whose pid has no entry contributes nothing. -/
theorem C8_translation_total (ids : IdentityMap) (groupName : String)
    (procs : List Process) :
    procMetrics ids groupName procs =
      procs.bind (fun proc => procMetrics ids groupName [proc]) ∧
    (∀ proc bucketID, mapLookup ids proc.pid = some bucketID →
      procMetrics ids groupName [proc] =
        [⟨"passenger_proc_memory", MetricKind.gauge, proc.realMemory,
           [groupName, toString bucketID]⟩,
         ⟨"passenger_requests_processed_total", MetricKind.counter,
           proc.requestsProcessed, [groupName, toString bucketID]⟩,
         ⟨"passenger_proc_start_time_seconds", MetricKind.gauge,
           Int.div proc.spawnStartTime microsecondsPerSecond,
           [groupName, toString bucketID]⟩]) ∧
    (∀ proc, mapLookup ids proc.pid = none →
      procMetrics ids groupName [proc] = []) := by
  refine ⟨?_, ?_, ?_⟩
  · induction procs with
    | nil => rfl
    | cons p rest ih =>
      simp only [procMetrics, List.cons_bind, List.nil_bind, List.append_nil] at ih ⊢
  · intro proc bucketID h
    simp [procMetrics, h]
  · intro proc h
    simp [procMetrics, h]

/-- Witness for C8: a mapped process yields its three measurements (start
time 2500000 microseconds becomes 2 seconds) and an unmapped process
yields nothing. -/
theorem C8_witness :
    mapLookup [("x", 2)] "x" = some 2 ∧
    procMetrics [("x", 2)] "g" [⟨"x", 5, 2500000, 7⟩] =
      [⟨"passenger_proc_memory", MetricKind.gauge, 7, ["g", "2"]⟩,
       ⟨"passenger_requests_processed_total", MetricKind.counter, 5, ["g", "2"]⟩,
       ⟨"passenger_proc_start_time_seconds", MetricKind.gauge, 2, ["g", "2"]⟩] ∧
    mapLookup [("x", 2)] "y" = none ∧
    procMetrics [("x", 2)] "g" [⟨"y", 0, 0, 0⟩] = [] := by
  refine ⟨by decide, ?_, by decide, ?_⟩
  · have h := (C8_translation_total [("x", 2)] "g" [⟨"x", 5, 2500000, 7⟩]).2.1
      ⟨"x", 5, 2500000, 7⟩ 2 (by decide)
    rw [h]
    decide
  · exact (C8_translation_total [("x", 2)] "g" [⟨"y", 0, 0, 0⟩]).2.2
      ⟨"y", 0, 0, 0⟩ (by decide)

-- ### Claim C9: slot injectivity

/-- C9 (confirmed).  Slot injectivity: starting from an injective previous
map with slots in [0, capacity) and a pairwise-distinct process list, the
call returns a map in which no two distinct pids share a slot.  (In fact
the construction assigns each scan index at most once, so the output is
injective whenever the call returns at all.) -/
theorem C9_slot_injective (M : IdentityMap) (P : List Process) (c : Nat)
    (hMinj : ∀ kv₁ ∈ M, ∀ kv₂ ∈ M, kv₁.2 = kv₂.2 → kv₁.1 = kv₂.1)
    (hrange : ∀ kv ∈ M, 0 ≤ kv.2 ∧ kv.2 < (c : Int))
    (hnodup : (P.map (fun p => p.pid)).Nodup) :
    ∃ m, updateProcesses M P c = some m ∧
      ∀ k₁ k₂ v, k₁ ≠ k₂ → mapLookup m k₁ = some v →
        mapLookup m k₂ = some v → False := by
  have hin : ∀ p ∈ P.take c, ∀ s, mapLookup M p.pid = some s →
      0 ≤ s ∧ s < (c : Int) :=
    fun p _ s hs => hrange (p.pid, s) (lookup_mem M p.pid s hs)
  obtain ⟨m, hm⟩ := updateProcesses_some M P c hin
  exact ⟨m, hm, updateProcesses_inj M P c m hm⟩

/-- Witness for C9: pid "a" dies, new pid "cn" reuses slot 0, "b" keeps
slot 1; the two entries hold distinct slots. -/
theorem C9_witness :
    updateProcesses [("a", 0), ("b", 1)] [onlyPid "b", onlyPid "cn"] 2 =
      some [("cn", 0), ("b", 1)] ∧
    mapLookup [("cn", 0), ("b", 1)] "cn" = some 0 ∧
    mapLookup [("cn", 0), ("b", 1)] "b" = some 1 := by
  obtain ⟨m, hm, hinj⟩ := C9_slot_injective [("a", 0), ("b", 1)]
    [onlyPid "b", onlyPid "cn"] 2 (by decide) (by decide) (by decide)
  exact ⟨by decide, by decide, by decide⟩

-- ### Claim C10: the previous map is never mutated

/-- C10 (confirmed).  Frame property, shown on the reference-passing
embedding: `updateProcessesRef` allocates a fresh address for the returned
map (the next free address of the store), leaves EVERY pre-existing map in
the store — in particular the previous map at `oldRef` — exactly as it
was, and the map at the fresh address is exactly the result of the pure
`updateProcesses` on the old map's value. -/
theorem C10_no_mutation (σ : Store) (oldRef : Nat) (processes : List Process)
    (maxProcesses : Nat) (σ' : Store) (newRef : Nat)
    (hvalid : oldRef < σ.length)
    (h : updateProcessesRef σ oldRef processes maxProcesses = some (σ', newRef)) :
    newRef = σ.length ∧
    σ'.length = σ.length + 1 ∧
    (∀ r, r < σ.length → storeRead σ' r = storeRead σ r) ∧
    updateProcesses (storeRead σ oldRef) processes maxProcesses =
      some (storeRead σ' newRef) :=
  updateProcessesRef_spec σ oldRef processes maxProcesses σ' newRef hvalid h

/-- Witness for C10: the store holds one map {a:0}; after the call the old
map is unchanged at address 0 and the fresh address 1 holds the result. -/
theorem C10_witness :
    updateProcessesRef [[("a", 0)]] 0 [onlyPid "a", onlyPid "b"] 2 =
      some ([[("a", 0)], [("a", 0), ("b", 1)]], 1) ∧
    storeRead [[("a", 0)], [("a", 0), ("b", 1)]] 0 = [("a", 0)] ∧
    updateProcesses [("a", 0)] [onlyPid "a", onlyPid "b"] 2 =
      some [("a", 0), ("b", 1)] := by
  have h := C10_no_mutation [[("a", 0)]] 0 [onlyPid "a", onlyPid "b"] 2
    [[("a", 0)], [("a", 0), ("b", 1)]] 1 (by decide) (by decide)
  refine ⟨by decide, ?_, ?_⟩
  · have hframe := h.2.2.1 0 (by decide)
    rw [hframe]
    decide
  · have hagree := h.2.2.2
    have e₁ : storeRead [[("a", 0)]] 0 = [("a", 0)] := by decide
    have e₂ : storeRead [[("a", 0)], [("a", 0), ("b", 1)]] 1 =
        [("a", 0), ("b", 1)] := by decide
    rw [e₁, e₂] at hagree
    exact hagree
